import Mathlib

/-!
# Wallet program (`src/Wallet.c`): embedding and verified properties

The C program keeps a growable array of transactions together with a list of
category names, loads and saves it as a whitespace separated text file, and
reports totals.  This file embeds the functions of `Wallet.c` as Lean
functions and proves properties of them.

Modelling conventions.

* A C string is the list of its characters before the terminating NUL
  (`CStr`).  `strcpy` into a field is assignment of the field; the fixed
  buffer sizes (`date[11]`, `type[8]`, `category[20]`) appear as hypotheses
  where a statement depends on them, overflowing them being undefined in C.
* The functions are generic in the carrier `α` of amounts: each uses only the
  operations the C code uses (`0.0`, `+`, `-`, `>`), and for file input and
  output the two libc conversions `%lf` and `%.2f`, which are parameters.
  The carrier of the program is `Binary64`, the IEEE 754 binary64 values with
  NaN, the infinities and both zeros, with the comparisons of C and with
  `printf2f` and `scanfLf` for the two conversions; the statements on what is
  written to the file, on what is read back from it and on the largest
  expense are stated on it.
* `wallet->transactions` is modelled with its unused slots: a list of
  `capacity` slots of which the first `size` are the stored transactions.
  Memory obtained from `malloc`/`realloc` has indeterminate contents; the
  value `junk` filling it is a parameter.
* `wallet->categories` with `wallet->categoryCount` is the list of the
  `categoryCount` strings of the array.
* `size_t` arithmetic is on `Nat` (no wrap-around is modelled).
* The message a function prints with `printf` is returned as a string next
  to the new state; `displayTotals` returns the values it prints.
-/

set_option exponentiation.threshold 5000

namespace WalletProgram

/-- A C string, as the list of characters before its terminating NUL. -/
abbrev CStr := List Char

/-- The struct `Transaction`; `α` stands for `double`. -/
structure Transaction (α : Type) where
  date : CStr
  type : CStr
  category : CStr
  amount : α
deriving DecidableEq

/-- The struct `Wallet`.  `transactions` holds all `capacity` slots of the
allocated array; `categories` is the array of `categoryCount` strings. -/
structure Wallet (α : Type) where
  transactions : List (Transaction α)
  size : Nat
  capacity : Nat
  categories : List CStr
deriving DecidableEq

variable {α : Type}

/-- The field `categoryCount`: the number of strings in `categories`. -/
def Wallet.categoryCount (w : Wallet α) : Nat := w.categories.length

/-- The stored transaction sequence `transactions[0 .. size-1]`. -/
def Wallet.entries (w : Wallet α) : List (Transaction α) :=
  w.transactions.take w.size

/-- Representation invariant of a wallet: the array has `capacity` slots, at
least one, and `size` does not exceed it. -/
def Wallet.WF (w : Wallet α) : Prop :=
  w.transactions.length = w.capacity ∧ w.size ≤ w.capacity ∧ 0 < w.capacity

instance (w : Wallet α) : Decidable w.WF := by
  unfold Wallet.WF; infer_instance

/-- The libc function `strcmp`, up to the magnitude of a non-zero result,
which the C standard leaves open and no caller looks at: 0 when the strings
are equal, otherwise -1 or 1 according to the first pair of characters that
differ (the end of a string ordering before every character). -/
def strcmp : CStr → CStr → Int
  | [], [] => 0
  | [], _ :: _ => -1
  | _ :: _, [] => 1
  | a :: as, b :: bs => if a = b then strcmp as bs else if a < b then -1 else 1

/-- The libc function `realloc` on the transaction array (`malloc` when the
old array is empty): the old slots are kept, new slots hold `junk`. -/
def realloc (junk : Transaction α) (buf : List (Transaction α)) (n : Nat) :
    List (Transaction α) :=
  buf.take n ++ List.replicate (n - buf.length) junk

/-- The function `initWallet` of `Wallet.c`, lines 32-38. -/
def initWallet (junk : Transaction α) : Wallet α :=
  { size := 0
    capacity := 10
    transactions := realloc junk [] 10
    categories := [] }

/-- The loop of `isCategoryExists` over `categories[0 .. categoryCount-1]`. -/
def isCategoryExistsLoop (category : CStr) : List CStr → Bool
  | [] => false
  | c :: cs => if strcmp c category = 0 then true else isCategoryExistsLoop category cs

/-- The function `isCategoryExists` of `Wallet.c`, lines 54-61. -/
def isCategoryExists (w : Wallet α) (category : CStr) : Bool :=
  isCategoryExistsLoop category w.categories

/-- The function `addCategory` of `Wallet.c`, lines 66-73. -/
def addCategory (w : Wallet α) (category : CStr) : Wallet α :=
  if !isCategoryExists w category then
    { w with categories := w.categories ++ [category] }
  else w

/-- The growth step shared by `addEntry` and `loadDatabase`:
`capacity *= 2` followed by `realloc`. -/
def grow (junk : Transaction α) (w : Wallet α) : Wallet α :=
  { w with
    capacity := w.capacity * 2
    transactions := realloc junk w.transactions (w.capacity * 2) }

/-- The function `addEntry` of `Wallet.c`, lines 111-127. -/
def addEntry (junk : Transaction α) (w : Wallet α) (date type category : CStr)
    (amount : α) : Wallet α × String :=
  let w1 := if w.size ≥ w.capacity then grow junk w else w
  let w2 : Wallet α :=
    { w1 with
      transactions := w1.transactions.set w1.size
        { date := date, type := type, category := category, amount := amount }
      size := w1.size + 1 }
  (addCategory w2 category, "Entry added successfully.\n")

/-- The function `editEntry` of `Wallet.c`, lines 131-141. -/
def editEntry (w : Wallet α) (index : Nat) (date type category : CStr)
    (amount : α) : Wallet α × String :=
  if index < w.size then
    ({ w with
       transactions := w.transactions.set index
         { date := date, type := type, category := category, amount := amount } },
     "Entry edited successfully.\n")
  else (w, "Invalid entry index.\n")

/-- One iteration of the loop of `deleteEntry`:
`transactions[i] = transactions[i + 1]`. -/
def shiftStep (buf : List (Transaction α)) (i : Nat) : List (Transaction α) :=
  match buf[i + 1]? with
  | some t => buf.set i t
  | none => buf

/-- The loop of `deleteEntry`: `i` runs from `index` while `i < size - 1`. -/
def shiftLoop (buf : List (Transaction α)) (index size : Nat) : List (Transaction α) :=
  (List.range' index (size - 1 - index)).foldl shiftStep buf

/-- The function `deleteEntry` of `Wallet.c`, lines 146-156. -/
def deleteEntry (w : Wallet α) (index : Nat) : Wallet α × String :=
  if index < w.size then
    ({ w with
       transactions := shiftLoop w.transactions index w.size
       size := w.size - 1 },
     "Entry deleted successfully.\n")
  else (w, "Invalid entry index.\n")

/-! ## File input and output -/

/-- The value `EOF` of `<stdio.h>`. -/
def EOF : Int := -1

/-- The libc predicate `isspace` in the C locale. -/
def isspace (c : Char) : Bool :=
  c = ' ' || c = '\t' || c = '\n' || c = '\x0b' || c = '\x0c' || c = '\r'

/-- White space skipped by a directive of `fscanf`. -/
def skipSpace (input : List Char) : List Char := input.dropWhile isspace

/-- The characters a `%s` directive of the given field width takes from the
input (at most `width` characters, up to the next white space), and the rest
of the input. -/
def readToken : Nat → List Char → List Char × List Char
  | 0, input => ([], input)
  | _ + 1, [] => ([], [])
  | width + 1, c :: cs =>
    if isspace c then ([], c :: cs)
    else ((c :: (readToken width cs).1), (readToken width cs).2)

/-- The C string found in a buffer holding the given characters followed by a
NUL: the characters before the first NUL. -/
def cstr (buf : List Char) : CStr := buf.takeWhile (fun c => c ≠ Char.ofNat 0)

/-- One `%Ns` directive: white space is skipped; at end of input the
directive fails (`none`), otherwise it stores a token. -/
def scanString (width : Nat) (input : List Char) : Option (CStr × List Char) :=
  match skipSpace input with
  | [] => none
  | c :: cs => some (cstr (readToken width (c :: cs)).1, (readToken width (c :: cs)).2)

/-- The call `fscanf(file, "%10s %7s %19s %lf", slot.date, slot.type,
slot.category, &slot.amount)` of `loadDatabase`.  The result is the return
value (`EOF` when the input ends before the first conversion, otherwise the
number of fields assigned), the slot with the assigned fields overwritten, and
the unread input.  `scanLf` is the `%lf` conversion: applied to input that
starts with a character that is not white space, it gives the converted
value, if the input starts with a number, and how many characters it read. -/
def fscanf (scanLf : List Char → Option α × Nat) (input : List Char)
    (slot : Transaction α) : Int × Transaction α × List Char :=
  match scanString 10 input with
  | none => (EOF, slot, [])
  | some (date, in1) =>
    match scanString 7 (skipSpace in1) with
    | none => (1, { slot with date := date }, [])
    | some (type, in2) =>
      match scanString 19 (skipSpace in2) with
      | none => (2, { slot with date := date, type := type }, [])
      | some (category, in3) =>
        match skipSpace (skipSpace in3) with
        | [] => (3, { slot with date := date, type := type, category := category }, [])
        | c :: cs =>
          match scanLf (c :: cs) with
          | (some amount, n) =>
            (4, { date := date, type := type, category := category, amount := amount },
              (c :: cs).drop n)
          | (none, n) =>
            (3, { slot with date := date, type := type, category := category },
              (c :: cs).drop n)

/-- The body of the `while` loop of `loadDatabase` (lines 81-86), entered
after `fscanf` has written into `transactions[size]`. -/
def loadBody (junk : Transaction α) (w : Wallet α) (slot : Transaction α) : Wallet α :=
  let w1 : Wallet α := { w with transactions := w.transactions.set w.size slot }
  let w2 := addCategory w1 slot.category
  let w3 : Wallet α := { w2 with size := w2.size + 1 }
  if w3.size ≥ w3.capacity then grow junk w3 else w3

/-- The `while` loop of `loadDatabase` (lines 80-87), run for at most `fuel`
calls of `fscanf`. -/
def loadLoop (scanLf : List Char → Option α × Nat) (junk : Transaction α) :
    Nat → List Char → Wallet α → Wallet α
  | 0, _, w => w
  | fuel + 1, input, w =>
    match fscanf scanLf input (w.transactions.getD w.size junk) with
    | (r, slot, rest) =>
      if r ≠ EOF then loadLoop scanLf junk fuel rest (loadBody junk w slot)
      else w

/-- The function `loadDatabase` of `Wallet.c`, lines 76-93.  The file is
`none` when `fopen` fails and its content otherwise.  Every call of `fscanf`
that does not return `EOF` reads at least one character, so
`content.length + 1` calls reach the end of the loop (`loadLoop_fuel`). -/
def loadDatabase (scanLf : List Char → Option α × Nat) (junk : Transaction α)
    (w : Wallet α) (file : Option (List Char)) : Wallet α × String :=
  match file with
  | some content =>
    (loadLoop scanLf junk (content.length + 1) content { w with size := 0 },
      "Database loaded successfully.\n")
  | none => (w, "Failed to load database.\n")

/-- The text written by `fprintf(file, "%s %s %s %.2f\n", ...)` for one
transaction; `fmt2` is the `%.2f` conversion. -/
def fprintfLine (fmt2 : α → List Char) (t : Transaction α) : List Char :=
  t.date ++ [' '] ++ t.type ++ [' '] ++ t.category ++ [' '] ++ fmt2 t.amount ++ ['\n']

/-- The function `saveDatabase` of `Wallet.c`, lines 97-108.  `canOpen` tells
whether `fopen` succeeds; the result is the wallet after the call (the
function only reads through its pointer), the content of the file written, if
any, and the message. -/
def saveDatabase (fmt2 : α → List Char) (w : Wallet α) (canOpen : Bool) :
    Wallet α × Option (List Char) × String :=
  if canOpen then
    (w, some (w.entries.foldl (fun out t => out ++ fprintfLine fmt2 t) []),
      "Database saved successfully.\n")
  else (w, none, "Failed to save database.\n")

/-! ## Reporting -/

/-- The local variables of `displayTotals` and the values it prints. -/
structure Totals (α : Type) where
  totalIncome : α
  totalExpenses : α
  maxCategory : CStr
  maxExpense : α
deriving DecidableEq

/-- The body of the loop of `displayTotals` (lines 169-177) for the
transaction `t = transactions[i]`. -/
def totalsStep [Add α] [LT α] [DecidableRel (fun a b : α => a < b)]
    (acc : Totals α) (t : Transaction α) : Totals α :=
  if strcmp t.type "income".toList = 0 then
    { acc with totalIncome := acc.totalIncome + t.amount }
  else if strcmp t.type "expense".toList = 0 then
    let acc1 : Totals α := { acc with totalExpenses := acc.totalExpenses + t.amount }
    if t.amount > acc1.maxExpense then
      { acc1 with maxExpense := t.amount, maxCategory := t.category }
    else acc1
  else acc

/-- The loop of `displayTotals` (lines 163-178) over `transactions[0 .. size-1]`. -/
def totalsLoop [Zero α] [Add α] [LT α] [DecidableRel (fun a b : α => a < b)]
    (w : Wallet α) : Totals α :=
  w.entries.foldl totalsStep
    { totalIncome := 0, totalExpenses := 0, maxCategory := [], maxExpense := 0 }

/-- The numbers and the category `displayTotals` (lines 162-185) prints, in
the order printed: total income, total expenses, balance, most expensive
category and its amount. -/
def displayTotals [Zero α] [Add α] [Sub α] [LT α] [DecidableRel (fun a b : α => a < b)]
    (w : Wallet α) : α × α × α × CStr × α :=
  let acc := totalsLoop w
  let balance := acc.totalIncome - acc.totalExpenses
  (acc.totalIncome, acc.totalExpenses, balance, acc.maxCategory, acc.maxExpense)

/-- The body of the loop of `displayStats` (lines 196-202) for the transaction
`t = transactions[i]`; `acc` holds `totalIncome` and `totalExpenses`. -/
def statsStep [Add α] (startDate endDate : CStr) (acc : α × α) (t : Transaction α) : α × α :=
  if strcmp t.date startDate ≥ 0 ∧ strcmp t.date endDate ≤ 0 then
    if strcmp t.type "income".toList = 0 then (acc.1 + t.amount, acc.2)
    else if strcmp t.type "expense".toList = 0 then (acc.1, acc.2 + t.amount)
    else acc
  else acc

/-- The two numbers `displayStats` (lines 190-207) prints: total income and
total expenses of the transactions dated within the range. -/
def displayStats [Zero α] [Add α] (w : Wallet α) (startDate endDate : CStr) : α × α :=
  w.entries.foldl (statsStep startDate endDate) (0, 0)

/-- The text `listCategories` (lines 211-220) prints. -/
def listCategories (w : Wallet α) : List Char :=
  if w.categoryCount > 0 then
    w.categories.foldl (fun out c => out ++ "- ".toList ++ c ++ ['\n']) "Categories:\n".toList
  else "No categories available.\n".toList

/-- The array accesses of the loop of `loadDatabase`: for every call of
`fscanf`, in order, the index `size` of the slot `transactions[size]` handed
to it and the `capacity` of the array at that time. -/
def loadLoopSlots (scanLf : List Char → Option α × Nat) (junk : Transaction α) :
    Nat → List Char → Wallet α → List (Nat × Nat)
  | 0, _, _ => []
  | fuel + 1, input, w =>
    match fscanf scanLf input (w.transactions.getD w.size junk) with
    | (r, slot, rest) =>
      (w.size, w.capacity) ::
        (if r ≠ EOF then loadLoopSlots scanLf junk fuel rest (loadBody junk w slot) else [])

/-! ## A concrete carrier for evaluation

The functions above are generic in the carrier of amounts.  To evaluate them
on concrete files the carrier `Int` is used, an amount being a whole number
of hundredths, with conversions that are exact on decimal numerals having at
most two fraction digits. -/

/-- The number written by a list of decimal digits. -/
def digitsValue (ds : List Char) : Nat :=
  ds.foldl (fun n c => 10 * n + (c.toNat - '0'.toNat)) 0

/-- A `%lf` conversion for amounts in hundredths: an optional sign, digits,
and optionally a point and more digits, of which two are kept; it fails when
there is no digit.  The second component is the number of characters read. -/
def scanHundredths (input : List Char) : Option Int × Nat :=
  let sign : List Char := (input.take 1).filter (fun c => c = '-' || c = '+')
  let in1 := input.drop sign.length
  let ip := in1.takeWhile Char.isDigit
  let in2 := in1.drop ip.length
  let dot := (in2.take 1).filter (fun c => c = '.')
  let fp := (in2.drop dot.length).takeWhile Char.isDigit
  if ip.length + fp.length = 0 then (none, sign.length + dot.length)
  else
    let mag : Nat := digitsValue ip * 100 + digitsValue ((fp ++ ['0', '0']).take 2)
    (some (if sign = ['-'] then - (mag : Int) else (mag : Int)),
      sign.length + ip.length + dot.length + fp.length)

/-- A `%.2f` conversion for amounts in hundredths. -/
def fmtHundredths (a : Int) : List Char :=
  (if a < 0 then ['-'] else []) ++ Nat.toDigits 10 (a.natAbs / 100) ++ ['.'] ++
    [Nat.digitChar (a.natAbs % 100 / 10), Nat.digitChar (a.natAbs % 10)]

/-- Contents of unused memory in the concrete evaluations. -/
def junk0 : Transaction Int := { date := [], type := [], category := [], amount := 0 }

/-! ## Sequences of operations -/

/-- A sequence of `addEntry` calls, in order; each element of `calls` holds
the four arguments `date`, `type`, `category`, `amount` of one call. -/
def addEntries (junk : Transaction α) (w : Wallet α) (calls : List (Transaction α)) :
    Wallet α :=
  calls.foldl (fun v c => (addEntry junk v c.date c.type c.category c.amount).1) w

/-- The wallet obtained from a fresh one by adding, in this order, an income
of 100.00 (category salary), an expense of 40.00 (category food) and an
expense of 70.00 (category rent); amounts in hundredths. -/
def sampleWallet : Wallet Int :=
  addEntries junk0 (initWallet junk0)
    [ { date := "2024/01/05".toList, type := "income".toList,
        category := "salary".toList, amount := 10000 },
      { date := "2024/01/10".toList, type := "expense".toList,
        category := "food".toList, amount := 4000 },
      { date := "2024/01/20".toList, type := "expense".toList,
        category := "rent".toList, amount := 7000 } ]

/-- The five functions of `Wallet.c` that change a wallet, with their
arguments. -/
inductive Op (α : Type) where
  | addCategory (category : CStr)
  | addEntry (date type category : CStr) (amount : α)
  | editEntry (index : Nat) (date type category : CStr) (amount : α)
  | deleteEntry (index : Nat)
  | loadDatabase (file : Option (List Char))

/-- The wallet after one operation. -/
def applyOp (scanLf : List Char → Option α × Nat) (junk : Transaction α)
    (w : Wallet α) : Op α → Wallet α
  | .addCategory category => addCategory w category
  | .addEntry date type category amount => (addEntry junk w date type category amount).1
  | .editEntry index date type category amount =>
    (editEntry w index date type category amount).1
  | .deleteEntry index => (deleteEntry w index).1
  | .loadDatabase file => (loadDatabase scanLf junk w file).1

/-- The wallet reached from `initWallet` by a sequence of operations. -/
def run (scanLf : List Char → Option α × Nat) (junk : Transaction α)
    (ops : List (Op α)) : Wallet α :=
  ops.foldl (applyOp scanLf junk) (initWallet junk)

/-- Whether an operation is a call of `editEntry`. -/
def Op.isEdit : Op α → Bool
  | .editEntry _ _ _ _ _ => true
  | _ => false

/-- Whether an operation is a call of `addCategory`. -/
def Op.isAddCategory : Op α → Bool
  | .addCategory _ => true
  | _ => false

/-! ## Format of the database file -/

/-- A field of a record of the file: a non-empty string of at most `width`
characters, none of them white space or NUL. -/
def isToken (width : Nat) (s : List Char) : Prop :=
  s ≠ [] ∧ s.length ≤ width ∧ ∀ c ∈ s, isspace c = false ∧ c ≠ Char.ofNat 0

instance (width : Nat) (s : List Char) : Decidable (isToken width s) := by
  unfold isToken; infer_instance

/-- White space, possibly none. -/
def isBlank (s : List Char) : Prop := ∀ c ∈ s, isspace c = true

instance (s : List Char) : Decidable (isBlank s) := by
  unfold isBlank; infer_instance

/-- White space between two fields: at least one character. -/
def isGap (s : List Char) : Prop := s ≠ [] ∧ isBlank s

instance (s : List Char) : Decidable (isGap s) := by
  unfold isGap; infer_instance

/-- The text `num ++ rest` starts with the number `num`, which `%lf` converts
to `a`. -/
def readsNumber (scanLf : List Char → Option α × Nat) (num rest : List Char) (a : α) : Prop :=
  (∃ c cs, num = c :: cs ∧ isspace c = false) ∧ scanLf (num ++ rest) = (some a, num.length)

/-- Files made of well-formed records only: `Records scanLf content rs` says
that `content` consists of the records `rs`, each being four fields (date,
type, category, amount) separated by white space, with arbitrary white space
before and after a record. -/
inductive Records (scanLf : List Char → Option α × Nat) :
    List Char → List (Transaction α) → Prop where
  | done (s : List Char) : isBlank s → Records scanLf s []
  | record (s pre date g1 type g2 category g3 num rest : List Char) (amount : α)
      (rs : List (Transaction α)) :
      s = pre ++ date ++ g1 ++ type ++ g2 ++ category ++ g3 ++ num ++ rest →
      isBlank pre → isToken 10 date → isGap g1 → isToken 7 type → isGap g2 →
      isToken 19 category → isGap g3 → readsNumber scanLf num rest amount →
      Records scanLf rest rs →
      Records scanLf s
        ({ date := date, type := type, category := category, amount := amount } :: rs)

/-- The elements of a list of names that occur neither in `seen` nor earlier
in the list, in the order of the list. -/
def firstOccurrences (seen : List CStr) : List CStr → List CStr
  | [] => []
  | c :: cs =>
    if c ∈ seen then firstOccurrences seen cs
    else c :: firstOccurrences (seen ++ [c]) cs

/-! ## The type `double`

The functions above are generic in the carrier of amounts.  `Binary64` is the
carrier of the C program on the usual platforms: the IEEE 754 binary64 values
with the two libc conversions `%.2f` and `%lf`, in round-to-nearest mode.  A
finite value is `k` times `2 ^ (-1074)` (the smallest positive value) with a
sign, so each finite double, the two zeros included, is written in one way. -/

/-- The integer nearest to `num / den`, the even one of the two when `num /
den` lies half way. -/
def roundHalfEven (num den : Nat) : Nat :=
  if 2 * (num % den) < den then num / den
  else if den < 2 * (num % den) then num / den + 1
  else if num / den % 2 = 0 then num / den
  else num / den + 1

/-- The values of `double`: NaN and infinity with their sign bit, and
`fin neg k` for the finite value `(-1) ^ neg * k * 2 ^ (-1074)`. -/
inductive Binary64 where
  | nan (neg : Bool)
  | inf (neg : Bool)
  | fin (neg : Bool) (k : Nat)
deriving DecidableEq

/-- For `q` of more than 53 bits, the number of low bits to drop for 53 to
remain (found by bisection; it is at most 4096, beyond which `Binary64.round`
overflows anyway). -/
def Binary64.excess (q : Nat) : Nat :=
  [2048, 1024, 512, 256, 128, 64, 32, 16, 8, 4, 2, 1].foldl
    (fun t i => if 2 ^ 53 ≤ q / 2 ^ (t + i) then t + i else t) 0 + 1

/-- The double nearest to `num / den` times `2 ^ (-1074)`, with sign `neg`
(ties to even, overflow to infinity): the rounding of every operation. -/
def Binary64.round (neg : Bool) (num den : Nat) : Binary64 :=
  if num / den < 2 ^ 53 then .fin neg (roundHalfEven num den)
  else if 2 ^ 2098 ≤
      roundHalfEven num (den * 2 ^ Binary64.excess (num / den)) *
        2 ^ Binary64.excess (num / den) then
    .inf neg
  else
    .fin neg (roundHalfEven num (den * 2 ^ Binary64.excess (num / den)) *
      2 ^ Binary64.excess (num / den))

/-- The double nearest to the fraction `num / den`, with sign `neg`. -/
def Binary64.ofFrac (neg : Bool) (num den : Nat) : Binary64 :=
  Binary64.round neg (num * 2 ^ 1074) den

/-- The position of a value in the order of the doubles, in units of
`2 ^ (-1074)`; NaN has none. -/
def Binary64.key : Binary64 → Option Int
  | .nan _ => none
  | .inf neg => some (if neg then -(2 ^ 2098 : Int) else 2 ^ 2098)
  | .fin neg k => some (if neg then -(k : Int) else k)

/-- The comparison `a < b` of C: false when an operand is NaN. -/
def Binary64.lt (a b : Binary64) : Bool :=
  match a.key, b.key with
  | some x, some y => decide (x < y)
  | _, _ => false

instance : LT Binary64 := ⟨fun a b => Binary64.lt a b = true⟩

instance : DecidableRel (fun a b : Binary64 => a < b) :=
  fun a b => inferInstanceAs (Decidable (Binary64.lt a b = true))

/-- The comparison `a <= b` of C: false when an operand is NaN. -/
def Binary64.le (a b : Binary64) : Bool :=
  match a.key, b.key with
  | some x, some y => decide (x ≤ y)
  | _, _ => false

instance : LE Binary64 := ⟨fun a b => Binary64.le a b = true⟩

instance : DecidableRel (fun a b : Binary64 => a ≤ b) :=
  fun a b => inferInstanceAs (Decidable (Binary64.le a b = true))

/-- Whether the value is a NaN. -/
def Binary64.isNaN : Binary64 → Bool
  | .nan _ => true
  | _ => false

/-- The value with the sign bit changed. -/
def Binary64.flip : Binary64 → Binary64
  | .nan neg => .nan (!neg)
  | .inf neg => .inf (!neg)
  | .fin neg k => .fin (!neg) k

/-- The double nearest to `z * 2 ^ (-1074)`; a zero result gets the sign
`zeroNeg`. -/
def Binary64.ofInt (z : Int) (zeroNeg : Bool) : Binary64 :=
  if z = 0 then .fin zeroNeg 0 else Binary64.round (decide (z < 0)) z.natAbs 1

/-- The sum `a + b` of C.  The sum of two infinities of opposite signs is the
NaN with the sign bit set, as on x86-64. -/
def Binary64.add : Binary64 → Binary64 → Binary64
  | .nan neg, _ => .nan neg
  | _, .nan neg => .nan neg
  | .inf a, .inf b => if a = b then .inf a else .nan true
  | .inf a, .fin _ _ => .inf a
  | .fin _ _, .inf b => .inf b
  | .fin a j, .fin b k =>
    Binary64.ofInt ((if a then -(j : Int) else j) + (if b then -(k : Int) else k)) (a && b)

/-- The difference `a - b` of C. -/
def Binary64.sub : Binary64 → Binary64 → Binary64
  | .nan neg, _ => .nan neg
  | _, .nan neg => .nan neg
  | a, b => Binary64.add a (Binary64.flip b)

instance : Zero Binary64 := ⟨.fin false 0⟩

instance : Add Binary64 := ⟨Binary64.add⟩

instance : Sub Binary64 := ⟨Binary64.sub⟩

/-- The sign written by `printf`. -/
def signText (neg : Bool) : List Char := if neg then ['-'] else []

/-- The magnitude of the finite value `k * 2 ^ (-1074)` in hundredths,
rounded to the nearest integer (ties to even). -/
def hundredths (k : Nat) : Nat := roundHalfEven (100 * k) (2 ^ 1074)

/-- The libc conversion `%.2f`: the exact value rounded to two fraction
digits; `nan` and `inf` for the values that are not finite. -/
def printf2f : Binary64 → List Char
  | .nan neg => signText neg ++ ['n', 'a', 'n']
  | .inf neg => signText neg ++ ['i', 'n', 'f']
  | .fin neg k =>
    signText neg ++ Nat.toDigits 10 (hundredths k / 100) ++
      ['.', Nat.digitChar (hundredths k % 100 / 10), Nat.digitChar (hundredths k % 10)]

/-- The number of leading characters of the input that agree, letter case
aside, with the word `word` (given in lower case). -/
def matchWord : List Char → List Char → Nat
  | w :: ws, c :: cs => if c.toLower = w then matchWord ws cs + 1 else 0
  | _, _ => 0

/-- The exponent part of a decimal numeral: nothing (exponent 0), or `e` or
`E`, an optional sign and digits.  The result is the exponent and the number
of characters read, or `none` with that number when `e` is not followed by a
digit. -/
def scanExponent (input : List Char) : Option Int × Nat :=
  match input with
  | c :: r =>
    if c = 'e' ∨ c = 'E' then
      match r with
      | s :: r2 =>
        if s = '-' then
          if (r2.takeWhile Char.isDigit).length = 0 then (none, 2)
          else (some (-(digitsValue (r2.takeWhile Char.isDigit) : Int)),
            2 + (r2.takeWhile Char.isDigit).length)
        else if s = '+' then
          if (r2.takeWhile Char.isDigit).length = 0 then (none, 2)
          else (some (digitsValue (r2.takeWhile Char.isDigit) : Int),
            2 + (r2.takeWhile Char.isDigit).length)
        else
          if (r.takeWhile Char.isDigit).length = 0 then (none, 1)
          else (some (digitsValue (r.takeWhile Char.isDigit) : Int),
            1 + (r.takeWhile Char.isDigit).length)
      | [] => (none, 1)
    else (some 0, 0)
  | [] => (some 0, 0)

/-- The double nearest to `m * 10 ^ x`, with sign `neg`. -/
def decimalValue (neg : Bool) (m : Nat) (x : Int) : Binary64 :=
  if 0 ≤ x then Binary64.ofFrac neg (m * 10 ^ x.toNat) 1
  else Binary64.ofFrac neg m (10 ^ (-x).toNat)

/-- The numeral after the sign: `inf` or `infinity`, `nan` (optionally with
a parenthesised sequence of letters, digits and underscores), or decimal
digits with an optional point and an optional exponent.  Hexadecimal numerals
are not modelled.  The result is the value, if the input starts with a
numeral, and the number of characters read. -/
def scanNumber (neg : Bool) (input : List Char) : Option Binary64 × Nat :=
  if matchWord ['n', 'a', 'n'] input = 3 then
    match input.drop 3 with
    | '(' :: r =>
      match r.dropWhile (fun c => c.isAlphanum || c = '_') with
      | ')' :: _ =>
        (some (.nan neg), 5 + (r.takeWhile (fun c => c.isAlphanum || c = '_')).length)
      | _ => (none, 4 + (r.takeWhile (fun c => c.isAlphanum || c = '_')).length)
    | _ => (some (.nan neg), 3)
  else if matchWord ['i', 'n', 'f'] input = 3 then
    if matchWord ['i', 'n', 'i', 't', 'y'] (input.drop 3) = 5 then (some (.inf neg), 8)
    else if matchWord ['i', 'n', 'i', 't', 'y'] (input.drop 3) = 0 then (some (.inf neg), 3)
    else (none, 3 + matchWord ['i', 'n', 'i', 't', 'y'] (input.drop 3))
  else if 0 < matchWord ['n', 'a', 'n'] input then (none, matchWord ['n', 'a', 'n'] input)
  else if 0 < matchWord ['i', 'n', 'f'] input then (none, matchWord ['i', 'n', 'f'] input)
  else
    match input.dropWhile Char.isDigit with
    | '.' :: r =>
      if (input.takeWhile Char.isDigit).length + (r.takeWhile Char.isDigit).length = 0 then
        (none, 1)
      else
        match scanExponent (r.dropWhile Char.isDigit) with
        | (some x, n) =>
          (some (decimalValue neg
              (digitsValue (input.takeWhile Char.isDigit ++ r.takeWhile Char.isDigit))
              (x - (r.takeWhile Char.isDigit).length)),
            (input.takeWhile Char.isDigit).length + 1 + (r.takeWhile Char.isDigit).length + n)
        | (none, n) =>
          (none,
            (input.takeWhile Char.isDigit).length + 1 + (r.takeWhile Char.isDigit).length + n)
    | r =>
      if (input.takeWhile Char.isDigit).length = 0 then (none, 0)
      else
        match scanExponent r with
        | (some x, n) =>
          (some (decimalValue neg (digitsValue (input.takeWhile Char.isDigit)) x),
            (input.takeWhile Char.isDigit).length + n)
        | (none, n) => (none, (input.takeWhile Char.isDigit).length + n)

/-- The libc conversion `%lf` on input that starts with a character that is
not white space: an optional sign and a numeral. -/
def scanfLf (input : List Char) : Option Binary64 × Nat :=
  match input with
  | c :: r =>
    if c = '-' then ((scanNumber true r).1, (scanNumber true r).2 + 1)
    else if c = '+' then ((scanNumber false r).1, (scanNumber false r).2 + 1)
    else scanNumber false (c :: r)
  | [] => (none, 0)

/-- The amount `a` rounded to two decimal places, as a double: the double
nearest to the nearest multiple of 0.01 (NaN and the infinities are kept). -/
def round2 : Binary64 → Binary64
  | .nan neg => .nan neg
  | .inf neg => .inf neg
  | .fin neg k => Binary64.ofFrac neg (hundredths k) 100

/-- Contents of unused memory in the evaluations on `Binary64`. -/
def junkDouble : Transaction Binary64 :=
  { date := [], type := [], category := [], amount := .fin false 0 }

/-- The wallet obtained from a fresh one by adding an income of 0.125
(category salary), an expense of 1234.375 (category food), an expense of
-0.004 (category refund) and an expense whose amount is NaN (category
misc). -/
def roundingWallet : Wallet Binary64 :=
  addEntries junkDouble (initWallet junkDouble)
    [ { date := "2024/01/05".toList, type := "income".toList,
        category := "salary".toList, amount := Binary64.ofFrac false 125 1000 },
      { date := "2024/01/10".toList, type := "expense".toList,
        category := "food".toList, amount := Binary64.ofFrac false 1234375 1000 },
      { date := "2024/01/20".toList, type := "expense".toList,
        category := "refund".toList, amount := Binary64.ofFrac true 4 1000 },
      { date := "2024/01/25".toList, type := "expense".toList,
        category := "misc".toList, amount := .nan false } ]

/-- The wallet obtained from a fresh one by adding an expense whose amount is
NaN (category misc), an expense of 5.00 (category food), an expense of 5.00
(category rent) and an expense of 2.50 (category bus). -/
def nanWallet : Wallet Binary64 :=
  addEntries junkDouble (initWallet junkDouble)
    [ { date := "2024/01/05".toList, type := "expense".toList,
        category := "misc".toList, amount := .nan false },
      { date := "2024/01/10".toList, type := "expense".toList,
        category := "food".toList, amount := Binary64.ofFrac false 5 1 },
      { date := "2024/01/20".toList, type := "expense".toList,
        category := "rent".toList, amount := Binary64.ofFrac false 5 1 },
      { date := "2024/01/25".toList, type := "expense".toList,
        category := "bus".toList, amount := Binary64.ofFrac false 25 10 } ]

/-! ## Basic facts about the embedded functions -/

theorem strcmp_eq_zero_iff (a b : CStr) : strcmp a b = 0 ↔ a = b := by
  induction a generalizing b with
  | nil => cases b <;> simp [strcmp]
  | cons x xs ih =>
    cases b with
    | nil => simp [strcmp]
    | cons y ys =>
      by_cases h : x = y
      · simp [strcmp, h, ih]
      · by_cases h2 : x < y <;> simp [strcmp, h, h2]

theorem isCategoryExistsLoop_iff (category : CStr) (cs : List CStr) :
    isCategoryExistsLoop category cs = true ↔ category ∈ cs := by
  induction cs with
  | nil => simp [isCategoryExistsLoop]
  | cons c cs ih =>
    by_cases h : c = category
    · simp [isCategoryExistsLoop, strcmp_eq_zero_iff, h]
    · have h2 : ¬ category = c := fun e => h e.symm
      simp [isCategoryExistsLoop, strcmp_eq_zero_iff, h, h2, ih]

theorem isCategoryExists_iff (w : Wallet α) (category : CStr) :
    isCategoryExists w category = true ↔ category ∈ w.categories :=
  isCategoryExistsLoop_iff category w.categories

theorem addCategory_categories (w : Wallet α) (category : CStr) :
    (addCategory w category).categories =
      if category ∈ w.categories then w.categories else w.categories ++ [category] := by
  unfold addCategory
  by_cases h : category ∈ w.categories
  · simp [(isCategoryExists_iff w category).2 h, h]
  · have h2 : isCategoryExists w category = false := by
      cases hb : isCategoryExists w category
      · rfl
      · exact absurd ((isCategoryExists_iff w category).1 hb) h
    simp [h2, h]

@[simp] theorem addCategory_transactions (w : Wallet α) (category : CStr) :
    (addCategory w category).transactions = w.transactions := by
  unfold addCategory; split <;> rfl

@[simp] theorem addCategory_size (w : Wallet α) (category : CStr) :
    (addCategory w category).size = w.size := by
  unfold addCategory; split <;> rfl

@[simp] theorem addCategory_capacity (w : Wallet α) (category : CStr) :
    (addCategory w category).capacity = w.capacity := by
  unfold addCategory; split <;> rfl

theorem realloc_length (junk : Transaction α) (buf : List (Transaction α)) (n : Nat) :
    (realloc junk buf n).length = n := by
  simp [realloc]; omega

theorem realloc_take (junk : Transaction α) (buf : List (Transaction α)) (n k : Nat)
    (hk : k ≤ buf.length) (hn : buf.length ≤ n) :
    (realloc junk buf n).take k = buf.take k := by
  have h1 : buf.take n = buf := List.take_of_length_le hn
  simp only [realloc, h1]
  rw [List.take_append_of_le_length hk]

theorem take_set_succ {β : Type} (l : List β) (n : Nat) (x : β) (h : n < l.length) :
    (l.set n x).take (n + 1) = l.take n ++ [x] := by
  induction l generalizing n with
  | nil => simp at h
  | cons y ys ih =>
    cases n with
    | zero => simp
    | succ m =>
      simp only [List.length_cons, Nat.add_lt_add_iff_right] at h
      simp [ih m h]

theorem initWallet_WF (junk : Transaction α) : (initWallet junk).WF := by
  simp [Wallet.WF, initWallet, realloc]

theorem initWallet_entries (junk : Transaction α) : (initWallet junk).entries = [] := by
  simp [Wallet.entries, initWallet]

theorem grow_WF (junk : Transaction α) (w : Wallet α) (hw : w.WF) : (grow junk w).WF := by
  obtain ⟨h1, h2, h3⟩ := hw
  refine ⟨?_, ?_, ?_⟩
  · simp [grow, realloc_length]
  · simp only [grow]; omega
  · simp only [grow]; omega

theorem grow_entries (junk : Transaction α) (w : Wallet α) (hw : w.WF) :
    (grow junk w).entries = w.entries := by
  obtain ⟨h1, h2, h3⟩ := hw
  simp only [Wallet.entries, grow]
  exact realloc_take junk w.transactions _ _ (by omega) (by omega)

/-- Writing `transactions[size]` and incrementing `size` appends to the stored
sequence, when the slot exists. -/
theorem entries_set_size (w : Wallet α) (t : Transaction α) (h : w.size < w.transactions.length) :
    ({ w with transactions := w.transactions.set w.size t, size := w.size + 1 } :
      Wallet α).entries = w.entries ++ [t] := by
  simp only [Wallet.entries]
  exact take_set_succ _ _ _ h

/-- What one call of `addEntry` does to a well-formed wallet. -/
theorem addEntry_spec (junk : Transaction α) (w : Wallet α) (hw : w.WF)
    (date type category : CStr) (amount : α) :
    (addEntry junk w date type category amount).1.WF ∧
    (addEntry junk w date type category amount).1.entries =
      w.entries ++ [{ date := date, type := type, category := category, amount := amount }] ∧
    (addEntry junk w date type category amount).1.size = w.size + 1 ∧
    (addEntry junk w date type category amount).1.categories =
      (addCategory w category).categories := by
  have key : ∀ v : Wallet α, v.WF → v.size < v.capacity → v.categories = w.categories →
      v.entries = w.entries → v.size = w.size →
      (addCategory { v with
          transactions := v.transactions.set v.size
            { date := date, type := type, category := category, amount := amount }
          size := v.size + 1 } category).WF ∧
      (addCategory { v with
          transactions := v.transactions.set v.size
            { date := date, type := type, category := category, amount := amount }
          size := v.size + 1 } category).entries =
        w.entries ++ [{ date := date, type := type, category := category, amount := amount }] ∧
      (addCategory { v with
          transactions := v.transactions.set v.size
            { date := date, type := type, category := category, amount := amount }
          size := v.size + 1 } category).size = w.size + 1 ∧
      (addCategory { v with
          transactions := v.transactions.set v.size
            { date := date, type := type, category := category, amount := amount }
          size := v.size + 1 } category).categories = (addCategory w category).categories := by
    intro v hv hlt hc he hs
    obtain ⟨h1, h2, h3⟩ := hv
    refine ⟨?_, ?_, ?_, ?_⟩
    · refine ⟨?_, ?_, ?_⟩
      · simp [h1]
      · simp; omega
      · simpa using h3
    · have := entries_set_size v
        { date := date, type := type, category := category, amount := amount } (by omega)
      simp only [Wallet.entries, addCategory_transactions, addCategory_size] at this he ⊢
      rw [this, he]
    · simp [hs]
    · simp [addCategory_categories, hc]
  unfold addEntry
  by_cases hge : w.size ≥ w.capacity
  · simp only [hge, if_true]
    have hg := grow_WF junk w hw
    refine key (grow junk w) hg ?_ rfl (grow_entries junk w hw) rfl
    obtain ⟨h1, h2, h3⟩ := hw
    simp only [grow]; omega
  · simp only [hge, if_false]
    exact key w hw (by omega) rfl rfl rfl

theorem addEntries_append (junk : Transaction α) (w : Wallet α)
    (calls : List (Transaction α)) (c : Transaction α) :
    addEntries junk w (calls ++ [c]) =
      (addEntry junk (addEntries junk w calls) c.date c.type c.category c.amount).1 := by
  simp [addEntries, List.foldl_append]

/-- A sequence of `addEntry` calls keeps the wallet well formed and appends the
arguments of the calls, in order, to the stored sequence. -/
theorem addEntries_spec (junk : Transaction α) (w : Wallet α) (hw : w.WF)
    (calls : List (Transaction α)) :
    (addEntries junk w calls).WF ∧
    (addEntries junk w calls).entries = w.entries ++ calls ∧
    (addEntries junk w calls).size = w.size + calls.length := by
  induction calls using List.reverseRecOn with
  | nil => simp [addEntries, hw]
  | append_singleton cs c ih =>
    obtain ⟨ih1, ih2, ih3⟩ := ih
    have h := addEntry_spec junk (addEntries junk w cs) ih1 c.date c.type c.category c.amount
    rw [addEntries_append]
    refine ⟨h.1, ?_, ?_⟩
    · rw [h.2.1, ih2, List.append_assoc]
    · rw [h.2.2.1, ih3, List.length_append]; rfl

theorem entries_getElem? (w : Wallet α) (k : Nat) (hk : k < w.size) :
    w.entries[k]? = w.transactions[k]? := by
  simp [Wallet.entries, List.getElem?_take, hk]

/-- C1: for every finite sequence of `addEntry` calls applied to a freshly
initialised wallet (with field strings that fit their buffers), the resulting
size equals the number of calls, and for every `k` the transaction at
position `k` carries exactly the date, type, category and amount passed to the
`k`-th call. -/
theorem addEntry_calls_size_and_order (junk : Transaction α) (calls : List (Transaction α))
    (_hfit : ∀ c ∈ calls, c.date.length ≤ 10 ∧ c.type.length ≤ 7 ∧ c.category.length ≤ 19) :
    (addEntries junk (initWallet junk) calls).size = calls.length ∧
    ∀ k, k < calls.length →
      (addEntries junk (initWallet junk) calls).transactions[k]? = calls[k]? := by
  obtain ⟨_, h2, h3⟩ := addEntries_spec junk (initWallet junk) (initWallet_WF junk) calls
  have hs : (addEntries junk (initWallet junk) calls).size = calls.length := by
    rw [h3]; simp [initWallet]
  refine ⟨hs, fun k hk => ?_⟩
  rw [← entries_getElem? _ k (by omega), h2, initWallet_entries, List.nil_append]

/-- C1, at a concrete input: eleven calls, one more than the initial capacity. -/
theorem addEntry_calls_size_and_order_witness :
    (addEntries junk0 (initWallet junk0)
      ((List.range 11).map (fun i =>
        { date := "2024/01/01".toList, type := "expense".toList,
          category := "food".toList, amount := (i : Int) }))).size = 11 ∧
    (addEntries junk0 (initWallet junk0)
      ((List.range 11).map (fun i =>
        { date := "2024/01/01".toList, type := "expense".toList,
          category := "food".toList, amount := (i : Int) }))).transactions[10]? =
      some { date := "2024/01/01".toList, type := "expense".toList,
             category := "food".toList, amount := 10 } :=
  have h := addEntry_calls_size_and_order junk0
    ((List.range 11).map (fun i =>
        { date := "2024/01/01".toList, type := "expense".toList,
          category := "food".toList, amount := (i : Int) }))
    (by decide)
  ⟨h.1, h.2 10 (by decide)⟩

theorem shiftStep_length (buf : List (Transaction α)) (i : Nat) :
    (shiftStep buf i).length = buf.length := by
  unfold shiftStep; split <;> simp

theorem shiftStep_getElem? (buf : List (Transaction α)) (i j : Nat) (h : i + 1 < buf.length) :
    (shiftStep buf i)[j]? = if j = i then buf[i + 1]? else buf[j]? := by
  unfold shiftStep
  have hs : buf[i + 1]? = some buf[i + 1] := List.getElem?_eq_getElem h
  rw [hs]
  simp only [List.getElem?_set]
  by_cases hji : j = i
  · subst hji
    have : j < buf.length := by omega
    simp [this]
  · have : ¬ i = j := fun e => hji e.symm
    simp [hji, this]

/-- The loop of `deleteEntry` moves the slots `i + 1 .. i + n` one position
down and leaves all other slots as they were. -/
theorem shiftFold_getElem? (n : Nat) (buf : List (Transaction α)) (i j : Nat)
    (h : i + n < buf.length) :
    ((List.range' i n).foldl shiftStep buf)[j]? =
      if i ≤ j ∧ j < i + n then buf[j + 1]? else buf[j]? := by
  induction n generalizing buf i with
  | zero =>
    have : ¬ (i ≤ j ∧ j < i) := by omega
    simp [this]
  | succ n ih =>
    rw [List.range'_succ, List.foldl_cons]
    have hlen := shiftStep_length buf i
    rw [ih (shiftStep buf i) (i + 1) (by omega)]
    by_cases h1 : i + 1 ≤ j ∧ j < i + 1 + n
    · have h2 : i ≤ j ∧ j < i + (n + 1) := by omega
      rw [if_pos h1, if_pos h2, shiftStep_getElem? buf i (j + 1) (by omega)]
      have : ¬ j + 1 = i := by omega
      simp [this]
    · rw [if_neg h1, shiftStep_getElem? buf i j (by omega)]
      by_cases hji : j = i
      · subst hji
        have h2 : j ≤ j ∧ j < j + (n + 1) := by omega
        simp [h2]
      · have h2 : ¬ (i ≤ j ∧ j < i + (n + 1)) := by omega
        simp [hji, h2]

theorem shiftLoop_length (buf : List (Transaction α)) (index size : Nat) :
    (shiftLoop buf index size).length = buf.length := by
  unfold shiftLoop
  generalize List.range' index (size - 1 - index) = l
  induction l generalizing buf with
  | nil => rfl
  | cons x xs ih => rw [List.foldl_cons, ih, shiftStep_length]

theorem shiftLoop_getElem? (buf : List (Transaction α)) (index size j : Nat)
    (hi : index < size) (hs : size ≤ buf.length) :
    (shiftLoop buf index size)[j]? =
      if index ≤ j ∧ j < size - 1 then buf[j + 1]? else buf[j]? := by
  unfold shiftLoop
  rw [shiftFold_getElem? _ buf index j (by omega)]
  have : index + (size - 1 - index) = size - 1 := by omega
  rw [this]

/-- What `deleteEntry` does at a valid index of a well-formed wallet. -/
theorem deleteEntry_spec (w : Wallet α) (hw : w.WF) (i : Nat) (hi : i < w.size) :
    (deleteEntry w i).1.WF ∧
    (deleteEntry w i).1.entries = w.entries.eraseIdx i ∧
    (deleteEntry w i).1.size = w.size - 1 ∧
    (deleteEntry w i).1.capacity = w.capacity ∧
    (deleteEntry w i).1.categories = w.categories ∧
    (deleteEntry w i).2 = "Entry deleted successfully.\n" := by
  obtain ⟨h1, h2, h3⟩ := hw
  have hd : deleteEntry w i =
      ({ w with transactions := shiftLoop w.transactions i w.size, size := w.size - 1 },
        "Entry deleted successfully.\n") := by
    simp [deleteEntry, hi]
  rw [hd]
  refine ⟨⟨?_, ?_, h3⟩, ?_, rfl, rfl, rfl, rfl⟩
  · simp [shiftLoop_length, h1]
  · show w.size - 1 ≤ w.capacity
    omega
  · simp only [Wallet.entries]
    apply List.ext_getElem?
    intro j
    rw [List.getElem?_take, List.getElem?_eraseIdx, List.getElem?_take, List.getElem?_take,
      shiftLoop_getElem? _ _ _ _ hi (by omega)]
    by_cases hj : j < w.size - 1
    · by_cases hji : j < i
      · have a1 : ¬ (i ≤ j ∧ j < w.size - 1) := by omega
        have a2 : j < w.size := by omega
        simp [hj, hji, a1, a2]
      · have a1 : i ≤ j ∧ j < w.size - 1 := by omega
        have a2 : j + 1 < w.size := by omega
        simp [hj, hji, a1, a2]
    · by_cases hji : j < i
      · omega
      · have a2 : ¬ j + 1 < w.size := by omega
        simp [hj, hji, a2]

/-- C4: for every wallet and every index `i < size`, `deleteEntry(i)` yields
the old transaction sequence with exactly the element at position `i`
removed: the size decreases by exactly 1, entries before `i` keep their
position, and each entry formerly at position `j > i` is now at position
`j - 1`. -/
theorem deleteEntry_removes_exactly_index (w : Wallet α) (hw : w.WF) (i : Nat)
    (hi : i < w.size) :
    (deleteEntry w i).1.entries = w.entries.eraseIdx i ∧
    (deleteEntry w i).1.size + 1 = w.size ∧
    (∀ j, j < i → (deleteEntry w i).1.transactions[j]? = w.transactions[j]?) ∧
    (∀ j, i < j → j < w.size →
      (deleteEntry w i).1.transactions[j - 1]? = w.transactions[j]?) := by
  obtain ⟨_, he, hs, _⟩ := deleteEntry_spec w hw i hi
  have hlen : w.size ≤ w.transactions.length := by
    obtain ⟨h1, h2, _⟩ := hw; omega
  refine ⟨he, by omega, ?_, ?_⟩
  · intro j hj
    simp only [deleteEntry, hi, if_true]
    show (shiftLoop w.transactions i w.size)[j]? = _
    rw [shiftLoop_getElem? _ _ _ _ hi hlen]
    have : ¬ (i ≤ j ∧ j < w.size - 1) := by omega
    simp [this]
  · intro j hij hj
    simp only [deleteEntry, hi, if_true]
    show (shiftLoop w.transactions i w.size)[j - 1]? = _
    rw [shiftLoop_getElem? _ _ _ _ hi hlen]
    have a1 : i ≤ j - 1 ∧ j - 1 < w.size - 1 := by omega
    have a2 : j - 1 + 1 = j := by omega
    simp [a1, a2]

/-- C4, at a concrete input: deleting the first of three entries. -/
theorem deleteEntry_removes_exactly_index_witness :
    (deleteEntry sampleWallet 0).1.entries = sampleWallet.entries.eraseIdx 0 ∧
    (deleteEntry sampleWallet 0).1.size + 1 = sampleWallet.size ∧
    (deleteEntry sampleWallet 0).1.transactions[1]? = sampleWallet.transactions[2]? :=
  have h := deleteEntry_removes_exactly_index sampleWallet (by decide) 0 (by decide)
  ⟨h.1, h.2.1, h.2.2.2 2 (by decide) (by decide)⟩

/-- What `editEntry` does at a valid index. -/
theorem editEntry_valid (w : Wallet α) (i : Nat) (hi : i < w.size)
    (date type category : CStr) (amount : α) :
    editEntry w i date type category amount =
      ({ w with
         transactions := w.transactions.set i
           { date := date, type := type, category := category, amount := amount } },
       "Entry edited successfully.\n") := by
  simp [editEntry, hi]

theorem editEntry_WF (w : Wallet α) (hw : w.WF) (i : Nat)
    (date type category : CStr) (amount : α) :
    (editEntry w i date type category amount).1.WF := by
  by_cases hi : i < w.size
  · rw [editEntry_valid w i hi]
    obtain ⟨h1, h2, h3⟩ := hw
    exact ⟨by simp [h1], h2, h3⟩
  · simp [editEntry, hi, hw]

/-- C3: for every wallet and every index `i < size`, `editEntry(i, date, type,
category, amount)` leaves the size unchanged, sets the transaction at
position `i` to exactly the four new field values, and leaves the transaction
at every other position `j != i` unchanged. -/
theorem editEntry_replaces_only_index (w : Wallet α) (hw : w.WF) (i : Nat) (hi : i < w.size)
    (date type category : CStr) (amount : α) :
    (editEntry w i date type category amount).1.size = w.size ∧
    (editEntry w i date type category amount).1.transactions[i]? =
      some { date := date, type := type, category := category, amount := amount } ∧
    ∀ j, j ≠ i →
      (editEntry w i date type category amount).1.transactions[j]? = w.transactions[j]? := by
  obtain ⟨h1, h2, _⟩ := hw
  rw [editEntry_valid w i hi]
  refine ⟨rfl, ?_, ?_⟩
  · have : i < w.transactions.length := by omega
    simp [List.getElem?_set, this]
  · intro j hj
    have : ¬ i = j := fun e => hj e.symm
    simp [List.getElem?_set, this]

/-- C3, at a concrete input: editing the second of three entries. -/
theorem editEntry_replaces_only_index_witness :
    (editEntry sampleWallet 1 "2024/02/01".toList "expense".toList "books".toList
      (2550 : Int)).1.size = 3 ∧
    (editEntry sampleWallet 1 "2024/02/01".toList "expense".toList "books".toList
      (2550 : Int)).1.transactions[1]? =
      some { date := "2024/02/01".toList, type := "expense".toList,
             category := "books".toList, amount := 2550 } ∧
    (editEntry sampleWallet 1 "2024/02/01".toList "expense".toList "books".toList
      (2550 : Int)).1.transactions[2]? = sampleWallet.transactions[2]? :=
  have h := editEntry_replaces_only_index sampleWallet (by decide) 1 (by decide)
    "2024/02/01".toList "expense".toList "books".toList (2550 : Int)
  ⟨h.1, h.2.1, h.2.2 2 (by decide)⟩

/-- C5: out-of-range indices are rejected atomically.  For every wallet and
every index `i >= size` (the empty wallet with `i = 0` included), both
`editEntry(i, ...)` and `deleteEntry(i)` take the `Invalid entry index`
failure branch and return the whole store (transaction array, size, capacity
and category list) unchanged; and each takes the failure branch only when
`i >= size`. -/
theorem out_of_range_index_rejected (w : Wallet α) (i : Nat)
    (date type category : CStr) (amount : α) :
    (w.size ≤ i →
      editEntry w i date type category amount = (w, "Invalid entry index.\n") ∧
      deleteEntry w i = (w, "Invalid entry index.\n")) ∧
    ((editEntry w i date type category amount).2 = "Invalid entry index.\n" → w.size ≤ i) ∧
    ((deleteEntry w i).2 = "Invalid entry index.\n" → w.size ≤ i) := by
  refine ⟨fun h => ?_, fun h => ?_, fun h => ?_⟩
  · have hn : ¬ i < w.size := by omega
    simp [editEntry, deleteEntry, hn]
  · by_cases hi : i < w.size
    · rw [editEntry_valid w i hi] at h
      have h2 : "Entry edited successfully.\n" = "Invalid entry index.\n" := h
      exact absurd h2 (by decide)
    · omega
  · by_cases hi : i < w.size
    · simp only [deleteEntry, hi, if_true] at h
      have h2 : "Entry deleted successfully.\n" = "Invalid entry index.\n" := h
      exact absurd h2 (by decide)
    · omega

/-- C5, at concrete inputs: index 0 of the empty wallet and index 3 of a
wallet of three entries. -/
theorem out_of_range_index_rejected_witness :
    (editEntry (initWallet junk0) 0 "2024/02/01".toList "expense".toList "books".toList
        (2550 : Int) = (initWallet junk0, "Invalid entry index.\n") ∧
      deleteEntry (initWallet junk0) 0 = (initWallet junk0, "Invalid entry index.\n")) ∧
    (editEntry sampleWallet 3 "2024/02/01".toList "expense".toList "books".toList
        (2550 : Int) = (sampleWallet, "Invalid entry index.\n") ∧
      deleteEntry sampleWallet 3 = (sampleWallet, "Invalid entry index.\n")) :=
  ⟨(out_of_range_index_rejected (initWallet junk0) 0 "2024/02/01".toList "expense".toList
      "books".toList (2550 : Int)).1 (by decide),
   (out_of_range_index_rejected sampleWallet 3 "2024/02/01".toList "expense".toList
      "books".toList (2550 : Int)).1 (by decide)⟩

theorem totalsStep_income [Add α] [LT α] [DecidableRel (fun a b : α => a < b)]
    (acc : Totals α) (t : Transaction α) (h : t.type = "income".toList) :
    totalsStep acc t = { acc with totalIncome := acc.totalIncome + t.amount } := by
  unfold totalsStep
  rw [if_pos ((strcmp_eq_zero_iff _ _).2 h)]

theorem totalsStep_expense [Add α] [LT α] [DecidableRel (fun a b : α => a < b)]
    (acc : Totals α) (t : Transaction α) (h : t.type = "expense".toList) :
    totalsStep acc t =
      if t.amount > acc.maxExpense then
        { acc with totalExpenses := acc.totalExpenses + t.amount,
                   maxExpense := t.amount, maxCategory := t.category }
      else { acc with totalExpenses := acc.totalExpenses + t.amount } := by
  have hne : ¬ strcmp t.type "income".toList = 0 := by
    rw [strcmp_eq_zero_iff, h]; decide
  unfold totalsStep
  rw [if_neg hne, if_pos ((strcmp_eq_zero_iff _ _).2 h)]

theorem totalsStep_other [Add α] [LT α] [DecidableRel (fun a b : α => a < b)]
    (acc : Totals α) (t : Transaction α) (hi : t.type ≠ "income".toList)
    (he : t.type ≠ "expense".toList) :
    totalsStep acc t = acc := by
  unfold totalsStep
  rw [if_neg (fun h => hi ((strcmp_eq_zero_iff _ _).1 h)),
    if_neg (fun h => he ((strcmp_eq_zero_iff _ _).1 h))]

theorem filter_type_cons_pos (s : CStr) (t : Transaction α) (ts : List (Transaction α))
    (h : t.type = s) :
    (t :: ts).filter (fun t => t.type = s) = t :: ts.filter (fun t => t.type = s) := by
  simp [List.filter_cons, h]

theorem filter_type_cons_neg (s : CStr) (t : Transaction α) (ts : List (Transaction α))
    (h : t.type ≠ s) :
    (t :: ts).filter (fun t => t.type = s) = ts.filter (fun t => t.type = s) := by
  simp [List.filter_cons, h]

/-- The two sums of the loop of `displayTotals`, from any starting values. -/
theorem totals_foldl [Add α] [LT α] [DecidableRel (fun a b : α => a < b)]
    (l : List (Transaction α)) (acc : Totals α) :
    (l.foldl totalsStep acc).totalIncome =
      ((l.filter (fun t => t.type = "income".toList)).map (fun t => t.amount)).foldl
        (fun s a => s + a) acc.totalIncome ∧
    (l.foldl totalsStep acc).totalExpenses =
      ((l.filter (fun t => t.type = "expense".toList)).map (fun t => t.amount)).foldl
        (fun s a => s + a) acc.totalExpenses := by
  induction l generalizing acc with
  | nil => exact ⟨rfl, rfl⟩
  | cons t ts ih =>
    rw [List.foldl_cons]
    obtain ⟨ih1, ih2⟩ := ih (totalsStep acc t)
    rw [ih1, ih2]
    by_cases hi : t.type = "income".toList
    · have hne : ¬ t.type = "expense".toList := by rw [hi]; decide
      rw [totalsStep_income acc t hi, filter_type_cons_pos _ t ts hi,
        filter_type_cons_neg _ t ts hne]
      exact ⟨rfl, rfl⟩
    · by_cases he : t.type = "expense".toList
      · have hs : (totalsStep acc t).totalIncome = acc.totalIncome ∧
            (totalsStep acc t).totalExpenses = acc.totalExpenses + t.amount := by
          rw [totalsStep_expense acc t he]
          split <;> exact ⟨rfl, rfl⟩
        rw [hs.1, hs.2, filter_type_cons_neg _ t ts hi, filter_type_cons_pos _ t ts he]
        exact ⟨rfl, rfl⟩
      · rw [totalsStep_other acc t hi he, filter_type_cons_neg _ t ts hi,
          filter_type_cons_neg _ t ts he]
        exact ⟨rfl, rfl⟩

/-- C10: for every wallet, `displayTotals` computes `totalIncome` as the sum
(accumulated from 0.0 in store order) of `amount` over exactly the
transactions whose type string equals "income", `totalExpenses` as the sum of
`amount` over exactly the transactions whose type string equals "expense"
(other types contribute to neither), and `balance` as `totalIncome` minus
`totalExpenses`; for [income 100.00, expense 40.00 food, expense 70.00 rent]
it yields 100.00, 110.00 and -10.00 (amounts in hundredths, and as printed
with `%.2f`). -/
theorem displayTotals_sums_by_type [Zero α] [Add α] [Sub α] [LT α]
    [DecidableRel (fun a b : α => a < b)] (w : Wallet α) :
    (displayTotals w).1 =
      ((w.entries.filter (fun t => t.type = "income".toList)).map (fun t => t.amount)).foldl
        (fun s a => s + a) 0 ∧
    (displayTotals w).2.1 =
      ((w.entries.filter (fun t => t.type = "expense".toList)).map (fun t => t.amount)).foldl
        (fun s a => s + a) 0 ∧
    (displayTotals w).2.2.1 = (displayTotals w).1 - (displayTotals w).2.1 ∧
    sampleWallet.entries.map (fun t => (t.type, t.category, t.amount)) =
      [("income".toList, "salary".toList, 10000), ("expense".toList, "food".toList, 4000),
       ("expense".toList, "rent".toList, 7000)] ∧
    (displayTotals sampleWallet).1 = 10000 ∧
    (displayTotals sampleWallet).2.1 = 11000 ∧
    (displayTotals sampleWallet).2.2.1 = -1000 ∧
    fmtHundredths (displayTotals sampleWallet).1 = "100.00".toList ∧
    fmtHundredths (displayTotals sampleWallet).2.1 = "110.00".toList ∧
    fmtHundredths (displayTotals sampleWallet).2.2.1 = "-10.00".toList := by
  refine ⟨?_, ?_, rfl, by decide, by decide, by decide, by decide, by decide, by decide,
    by decide⟩
  · exact (totals_foldl w.entries _).1
  · exact (totals_foldl w.entries _).2

/-! ## Scanning -/

theorem skipSpace_blank_append (pre s : List Char) (h : isBlank pre) :
    skipSpace (pre ++ s) = skipSpace s := by
  induction pre with
  | nil => rfl
  | cons c cs ih =>
    have hc : isspace c = true := h c (List.mem_cons_self _ _)
    have hcs : isBlank cs := fun d hd => h d (List.mem_cons_of_mem _ hd)
    simp only [skipSpace, List.cons_append, List.dropWhile_cons, hc, if_true]
    exact ih hcs

theorem skipSpace_cons (c : Char) (cs : List Char) (h : isspace c = false) :
    skipSpace (c :: cs) = c :: cs := by
  simp [skipSpace, List.dropWhile_cons, h]

theorem skipSpace_blank (s : List Char) (h : isBlank s) : skipSpace s = [] := by
  have := skipSpace_blank_append s [] h
  simpa [skipSpace] using this

theorem skipSpace_length_le (s : List Char) : (skipSpace s).length ≤ s.length := by
  induction s with
  | nil => simp [skipSpace]
  | cons c cs ih =>
    simp only [skipSpace, List.dropWhile_cons] at ih ⊢
    split
    · simp only [List.length_cons]; omega
    · simp

theorem skipSpace_head (s : List Char) (c : Char) (cs : List Char)
    (h : skipSpace s = c :: cs) : isspace c = false := by
  induction s with
  | nil => simp [skipSpace] at h
  | cons d ds ih =>
    simp only [skipSpace, List.dropWhile_cons] at h ih
    by_cases hd : isspace d = true
    · simp only [hd, if_true] at h
      exact ih h
    · simp only [hd] at h
      have hdc : d = c := by
        simp only [Bool.false_eq_true, if_false, List.cons.injEq] at h
        exact h.1
      rw [← hdc]
      simpa using hd

theorem readToken_length_le (width : Nat) (s : List Char) :
    (readToken width s).2.length ≤ s.length := by
  induction width generalizing s with
  | zero => simp [readToken]
  | succ n ih =>
    cases s with
    | nil => simp [readToken]
    | cons c cs =>
      simp only [readToken]
      split
      · simp
      · simp only [List.length_cons]
        have := ih cs
        omega

theorem readToken_length_lt (width : Nat) (c : Char) (cs : List Char)
    (hw : 0 < width) (hc : isspace c = false) :
    (readToken width (c :: cs)).2.length < (c :: cs).length := by
  cases width with
  | zero => omega
  | succ n =>
    simp only [readToken, hc, Bool.false_eq_true, if_false, List.length_cons]
    have := readToken_length_le n cs
    omega

/-- A `%s` directive reads a whole field when the field fits the width and is
followed by white space or the end of the file. -/
theorem readToken_token (width : Nat) (tok rest : List Char)
    (hlen : tok.length ≤ width) (hns : ∀ c ∈ tok, isspace c = false)
    (hrest : rest = [] ∨ ∃ c cs, rest = c :: cs ∧ isspace c = true) :
    readToken width (tok ++ rest) = (tok, rest) := by
  induction tok generalizing width with
  | nil =>
    cases width with
    | zero => simp [readToken]
    | succ n =>
      rcases hrest with h | ⟨c, cs, h, hc⟩
      · subst h; simp [readToken]
      · subst h; simp [readToken, hc]
  | cons c cs ih =>
    cases width with
    | zero => simp at hlen
    | succ n =>
      have hc : isspace c = false := hns c (List.mem_cons_self _ _)
      have hcs : ∀ d ∈ cs, isspace d = false := fun d hd => hns d (List.mem_cons_of_mem _ hd)
      have hl : cs.length ≤ n := by simpa using hlen
      have h := ih n hl hcs
      show readToken (n + 1) (c :: (cs ++ rest)) = (c :: cs, rest)
      simp only [readToken, hc, Bool.false_eq_true, if_false, h]

theorem cstr_of_no_nul (s : List Char) (h : ∀ c ∈ s, c ≠ Char.ofNat 0) : cstr s = s := by
  unfold cstr
  rw [List.takeWhile_eq_self_iff]
  intro c hc
  simpa using h c hc

theorem scanString_token (width : Nat) (pre tok rest : List Char) (hpre : isBlank pre)
    (htok : isToken width tok)
    (hrest : rest = [] ∨ ∃ c cs, rest = c :: cs ∧ isspace c = true) :
    scanString width (pre ++ tok ++ rest) = some (tok, rest) := by
  obtain ⟨hne, hlen, hall⟩ := htok
  obtain ⟨c, cs, rfl⟩ := List.exists_cons_of_ne_nil hne
  have hc : isspace c = false := (hall c (List.mem_cons_self _ _)).1
  have h1 : skipSpace (pre ++ (c :: cs) ++ rest) = c :: (cs ++ rest) := by
    rw [List.append_assoc, skipSpace_blank_append _ _ hpre]
    exact skipSpace_cons c _ hc
  have h2 := readToken_token width (c :: cs) rest hlen (fun d hd => (hall d hd).1) hrest
  have h3 := cstr_of_no_nul (c :: cs) (fun d hd => (hall d hd).2)
  unfold scanString
  rw [h1]
  simp only [List.cons_append] at h2
  simp only [h2, h3]

theorem scanString_blank (width : Nat) (s : List Char) (h : isBlank s) :
    scanString width s = none := by
  unfold scanString
  rw [skipSpace_blank s h]

theorem gap_append_head (g s : List Char) (h : isGap g) :
    g ++ s = [] ∨ ∃ c cs, g ++ s = c :: cs ∧ isspace c = true := by
  obtain ⟨hne, hb⟩ := h
  obtain ⟨c, cs, rfl⟩ := List.exists_cons_of_ne_nil hne
  exact Or.inr ⟨c, cs ++ s, rfl, hb c (List.mem_cons_self _ _)⟩

theorem skipSpace_idem (s : List Char) : skipSpace (skipSpace s) = skipSpace s := by
  cases h : skipSpace s with
  | nil => rfl
  | cons c cs => exact skipSpace_cons c cs (skipSpace_head s c cs h)

theorem scanString_skipSpace (width : Nat) (s : List Char) :
    scanString width (skipSpace s) = scanString width s := by
  unfold scanString
  rw [skipSpace_idem]

/-- On a well-formed record `fscanf` assigns the four fields, returns 4 and
leaves the text after the number unread. -/
theorem fscanf_record (scanLf : List Char → Option α × Nat)
    (pre date g1 type g2 category g3 num rest : List Char) (amount : α)
    (slot : Transaction α)
    (hpre : isBlank pre) (hd : isToken 10 date) (hg1 : isGap g1) (ht : isToken 7 type)
    (hg2 : isGap g2) (hc : isToken 19 category) (hg3 : isGap g3)
    (hn : readsNumber scanLf num rest amount) :
    fscanf scanLf (pre ++ date ++ g1 ++ type ++ g2 ++ category ++ g3 ++ num ++ rest) slot =
      (4, { date := date, type := type, category := category, amount := amount }, rest) := by
  obtain ⟨⟨c, cs, hnum, hcsp⟩, hscan⟩ := hn
  have e1 : pre ++ date ++ g1 ++ type ++ g2 ++ category ++ g3 ++ num ++ rest =
      pre ++ date ++ (g1 ++ (type ++ (g2 ++ (category ++ (g3 ++ (num ++ rest)))))) := by
    simp [List.append_assoc]
  have s1 := scanString_token 10 pre date _ hpre hd
    (gap_append_head g1 (type ++ (g2 ++ (category ++ (g3 ++ (num ++ rest))))) hg1)
  have s2 : scanString 7 (skipSpace (g1 ++ (type ++ (g2 ++ (category ++ (g3 ++ (num ++ rest)))))))
      = some (type, g2 ++ (category ++ (g3 ++ (num ++ rest)))) := by
    rw [scanString_skipSpace]
    have := scanString_token 7 g1 type _ hg1.2 ht
      (gap_append_head g2 (category ++ (g3 ++ (num ++ rest))) hg2)
    simpa [List.append_assoc] using this
  have s3 : scanString 19 (skipSpace (g2 ++ (category ++ (g3 ++ (num ++ rest)))))
      = some (category, g3 ++ (num ++ rest)) := by
    rw [scanString_skipSpace]
    have := scanString_token 19 g2 category _ hg2.2 hc (gap_append_head g3 (num ++ rest) hg3)
    simpa [List.append_assoc] using this
  have s4 : skipSpace (skipSpace (g3 ++ (num ++ rest))) = c :: (cs ++ rest) := by
    rw [skipSpace_idem, skipSpace_blank_append _ _ hg3.2, hnum]
    exact skipSpace_cons c _ hcsp
  have s5 : scanLf (c :: (cs ++ rest)) = (some amount, (c :: cs).length) := by
    rw [← hnum]
    have : c :: (cs ++ rest) = num ++ rest := by rw [hnum]; rfl
    rw [this]; exact hscan
  have s6 : (c :: (cs ++ rest)).drop (c :: cs).length = rest := by
    have : c :: (cs ++ rest) = (c :: cs) ++ rest := rfl
    rw [this, List.drop_left]
  rw [e1]
  unfold fscanf
  simp only [s1, s2, s3, s4, s5, s6]

/-- At the end of the file (only white space left) `fscanf` returns `EOF` and
assigns nothing. -/
theorem fscanf_blank (scanLf : List Char → Option α × Nat) (s : List Char)
    (slot : Transaction α) (h : isBlank s) :
    fscanf scanLf s slot = (EOF, slot, []) := by
  unfold fscanf
  rw [scanString_blank 10 s h]

theorem scanString_length_lt (width : Nat) (hw : 0 < width) (s tok rest : List Char)
    (h : scanString width s = some (tok, rest)) : rest.length < s.length := by
  unfold scanString at h
  cases hs : skipSpace s with
  | nil => rw [hs] at h; simp at h
  | cons c cs =>
    rw [hs] at h
    simp only [Option.some.injEq, Prod.mk.injEq] at h
    have h1 := readToken_length_lt width c cs hw (skipSpace_head s c cs hs)
    have h2 := skipSpace_length_le s
    rw [hs] at h2
    rw [← h.2]
    omega

/-- Every call of `fscanf` that does not return `EOF` consumes input. -/
theorem fscanf_consumes (scanLf : List Char → Option α × Nat) (s : List Char)
    (slot : Transaction α) (h : (fscanf scanLf s slot).1 ≠ EOF) :
    (fscanf scanLf s slot).2.2.length < s.length := by
  unfold fscanf at h ⊢
  cases h1 : scanString 10 s with
  | none => simp [h1] at h
  | some p1 =>
    obtain ⟨date, in1⟩ := p1
    have l1 := scanString_length_lt 10 (by decide) s date in1 h1
    simp only []
    cases h2 : scanString 7 (skipSpace in1) with
    | none => simp only []; simp; omega
    | some p2 =>
      obtain ⟨type, in2⟩ := p2
      have l2 := scanString_length_lt 7 (by decide) _ type in2 h2
      have l2' := skipSpace_length_le in1
      simp only []
      cases h3 : scanString 19 (skipSpace in2) with
      | none => simp only []; simp; omega
      | some p3 =>
        obtain ⟨category, in3⟩ := p3
        have l3 := scanString_length_lt 19 (by decide) _ category in3 h3
        have l3' := skipSpace_length_le in2
        have l4 := skipSpace_length_le in3
        have l4' := skipSpace_length_le (skipSpace in3)
        simp only []
        cases h4 : skipSpace (skipSpace in3) with
        | nil => simp only []; simp; omega
        | cons c cs =>
          rw [h4] at l4'
          simp only []
          cases h5 : scanLf (c :: cs) with
          | mk v n =>
            cases v with
            | none =>
              simp only [List.length_drop]
              omega
            | some a =>
              simp only [List.length_drop]
              omega

/-! ## The loop of `loadDatabase` -/

/-- What the body of the loop of `loadDatabase` does once `fscanf` has filled
`slot`: the slot is appended to the stored sequence and its category is
registered; afterwards there is again a free slot. -/
theorem loadBody_spec (junk : Transaction α) (w : Wallet α) (slot : Transaction α)
    (hw : w.WF) (hlt : w.size < w.capacity) :
    (loadBody junk w slot).WF ∧
    (loadBody junk w slot).size < (loadBody junk w slot).capacity ∧
    (loadBody junk w slot).entries = w.entries ++ [slot] ∧
    (loadBody junk w slot).categories = (addCategory w slot.category).categories ∧
    (loadBody junk w slot).size = w.size + 1 := by
  obtain ⟨h1, h2, h3⟩ := hw
  have hc : (addCategory { w with transactions := w.transactions.set w.size slot }
      slot.category).categories = (addCategory w slot.category).categories := by
    simp [addCategory_categories]
  have hwf3 : ({ addCategory { w with transactions := w.transactions.set w.size slot }
        slot.category with
      size := (addCategory { w with transactions := w.transactions.set w.size slot }
        slot.category).size + 1 } : Wallet α).WF := by
    refine ⟨?_, ?_, ?_⟩
    · simp [h1]
    · simp; omega
    · simpa using h3
  have he3 : ({ addCategory { w with transactions := w.transactions.set w.size slot }
        slot.category with
      size := (addCategory { w with transactions := w.transactions.set w.size slot }
        slot.category).size + 1 } : Wallet α).entries = w.entries ++ [slot] := by
    have := entries_set_size w slot (by omega)
    simp only [Wallet.entries, addCategory_transactions, addCategory_size] at this ⊢
    exact this
  unfold loadBody
  simp only []
  split
  · rename_i hge
    simp only [addCategory_size, addCategory_capacity] at hge
    refine ⟨grow_WF junk _ hwf3, ?_, ?_, ?_, ?_⟩
    · simp only [grow, addCategory_size, addCategory_capacity]; omega
    · rw [grow_entries junk _ hwf3, he3]
    · simp only [grow]; exact hc
    · simp [grow]
  · rename_i hge
    simp only [addCategory_size, addCategory_capacity] at hge
    refine ⟨hwf3, ?_, he3, hc, ?_⟩
    · simp only [addCategory_size, addCategory_capacity]; omega
    · simp

/-- The loop of `loadDatabase` ends by itself: any two amounts of fuel above
the length of the input give the same wallet. -/
theorem loadLoop_fuel (scanLf : List Char → Option α × Nat) (junk : Transaction α)
    (fuel1 fuel2 : Nat) (input : List Char) (w : Wallet α)
    (h1 : input.length < fuel1) (h2 : input.length < fuel2) :
    loadLoop scanLf junk fuel1 input w = loadLoop scanLf junk fuel2 input w := by
  induction fuel1 generalizing fuel2 input w with
  | zero => omega
  | succ f1 ih =>
    cases fuel2 with
    | zero => omega
    | succ f2 =>
      simp only [loadLoop]
      by_cases hr : (fscanf scanLf input (w.transactions.getD w.size junk)).1 ≠ EOF
      · have hlt := fscanf_consumes scanLf input _ hr
        rw [if_pos hr, if_pos hr]
        exact ih f2 _ _ (Nat.lt_of_lt_of_le hlt (by omega)) (Nat.lt_of_lt_of_le hlt (by omega))
      · rw [if_neg hr, if_neg hr]

/-- A property kept by the body of the loop holds after `loadDatabase`'s loop,
whatever the file contains. -/
theorem loadLoop_preserves (scanLf : List Char → Option α × Nat) (junk : Transaction α)
    (P : Wallet α → Prop)
    (hP : ∀ w slot, w.WF → w.size < w.capacity → P w → P (loadBody junk w slot))
    (fuel : Nat) (input : List Char) (w : Wallet α)
    (hw : w.WF) (hlt : w.size < w.capacity) (h : P w) :
    (loadLoop scanLf junk fuel input w).WF ∧
    (loadLoop scanLf junk fuel input w).size < (loadLoop scanLf junk fuel input w).capacity ∧
    P (loadLoop scanLf junk fuel input w) := by
  induction fuel generalizing input w with
  | zero => exact ⟨hw, hlt, h⟩
  | succ f ih =>
    simp only [loadLoop]
    split
    · have hb := loadBody_spec junk w (fscanf scanLf input (w.transactions.getD w.size junk)).2.1
        hw hlt
      exact ih _ _ hb.1 hb.2.1 (hP w _ hw hlt h)
    · exact ⟨hw, hlt, h⟩

theorem firstOccurrences_cons (seen : List CStr) (c : CStr) (cs : List CStr) :
    (if c ∈ seen then seen else seen ++ [c]) ++
        firstOccurrences (if c ∈ seen then seen else seen ++ [c]) cs =
      seen ++ firstOccurrences seen (c :: cs) := by
  by_cases h : c ∈ seen
  · simp [firstOccurrences, h]
  · simp [firstOccurrences, h]

/-- On a file of well-formed records the loop appends exactly the records of
the file, in file order, and registers their categories in first-seen order. -/
theorem loadLoop_records (scanLf : List Char → Option α × Nat) (junk : Transaction α)
    (s : List Char) (rs : List (Transaction α)) (hrs : Records scanLf s rs)
    (fuel : Nat) (w : Wallet α) (hf : s.length < fuel) (hw : w.WF)
    (hlt : w.size < w.capacity) :
    (loadLoop scanLf junk fuel s w).WF ∧
    (loadLoop scanLf junk fuel s w).entries = w.entries ++ rs ∧
    (loadLoop scanLf junk fuel s w).categories =
      w.categories ++ firstOccurrences w.categories (rs.map (fun r => r.category)) := by
  induction hrs generalizing fuel w with
  | done s hb =>
    cases fuel with
    | zero => omega
    | succ f =>
      simp only [loadLoop, fscanf_blank scanLf s _ hb]
      simp [firstOccurrences, hw]
  | record s pre date g1 type g2 category g3 num rest amount rs hs hpre hd hg1 ht hg2 hc hg3
      hn _ ih =>
    cases fuel with
    | zero => omega
    | succ f =>
      have hfs := fscanf_record scanLf pre date g1 type g2 category g3 num rest amount
        (w.transactions.getD w.size junk) hpre hd hg1 ht hg2 hc hg3 hn
      rw [← hs] at hfs
      have hlen : rest.length < s.length := by
        have := fscanf_consumes scanLf s (w.transactions.getD w.size junk)
          (by rw [hfs]; exact (by decide : (4 : Int) ≠ EOF))
        rw [hfs] at this
        exact this
      simp only [loadLoop, hfs]
      rw [if_pos (by decide : (4 : Int) ≠ EOF)]
      have hb := loadBody_spec junk w
        { date := date, type := type, category := category, amount := amount } hw hlt
      obtain ⟨i1, i2, i3⟩ := ih f _ (by omega) hb.1 hb.2.1
      refine ⟨i1, ?_, ?_⟩
      · rw [i2, hb.2.2.1, List.append_assoc]; rfl
      · rw [i3, hb.2.2.2.1, addCategory_categories]
        exact firstOccurrences_cons w.categories category (rs.map (fun r => r.category))

/-! ## `loadDatabase` -/

theorem firstOccurrences_mem (seen l : List CStr) (c : CStr) :
    c ∈ firstOccurrences seen l ↔ c ∈ l ∧ c ∉ seen := by
  induction l generalizing seen with
  | nil => simp [firstOccurrences]
  | cons d ds ih =>
    by_cases hd : d ∈ seen
    · simp only [firstOccurrences, hd, if_true, ih, List.mem_cons]
      constructor
      · rintro ⟨h1, h2⟩; exact ⟨Or.inr h1, h2⟩
      · rintro ⟨h1 | h1, h2⟩
        · subst h1; exact absurd hd h2
        · exact ⟨h1, h2⟩
    · simp only [firstOccurrences, hd, if_false, List.mem_cons, ih, List.mem_append,
        List.mem_singleton, not_or]
      constructor
      · rintro (h | ⟨h1, h2, _⟩)
        · subst h; exact ⟨Or.inl rfl, hd⟩
        · exact ⟨Or.inr h1, h2⟩
      · rintro ⟨h1 | h1, h2⟩
        · exact Or.inl h1
        · by_cases hcd : c = d
          · exact Or.inl hcd
          · exact Or.inr ⟨h1, h2, by simpa using hcd⟩

theorem firstOccurrences_nodup (seen l : List CStr) : (firstOccurrences seen l).Nodup := by
  induction l generalizing seen with
  | nil => simp [firstOccurrences]
  | cons d ds ih =>
    by_cases hd : d ∈ seen
    · simp only [firstOccurrences, hd, if_true]; exact ih seen
    · simp only [firstOccurrences, hd, if_false, List.nodup_cons]
      refine ⟨?_, ih _⟩
      rw [firstOccurrences_mem]
      simp

/-- C8 as stated fails: a failed open on a wallet holding three transactions
leaves the count at 3. -/
theorem loadDatabase_failed_open_counterexample :
    sampleWallet.size = 3 ∧
    (loadDatabase scanHundredths junk0 sampleWallet none).2 = "Failed to load database.\n" ∧
    (loadDatabase scanHundredths junk0 sampleWallet none).1.size = 3 ∧
    (loadDatabase scanHundredths junk0 sampleWallet none).1.size ≠ 0 := by
  decide

/-- C8, amended: when the file cannot be opened, `loadDatabase` reports the
load failure and leaves the store as it was: the wallet is returned unchanged,
so the transaction count is 0 afterwards exactly when it was 0 before. -/
theorem loadDatabase_failed_open_unchanged (scanLf : List Char → Option α × Nat)
    (junk : Transaction α) (w : Wallet α) :
    loadDatabase scanLf junk w none = (w, "Failed to load database.\n") ∧
    ((loadDatabase scanLf junk w none).1.size = 0 ↔ w.size = 0) :=
  ⟨rfl, Iff.rfl⟩

/-- C9, the code at the failing inputs.  The wallet holds three transactions
when two files are loaded.  In the first file a complete record is followed by
a record of two fields: the code appends a second transaction, made of those
two fields and of the category and amount left in the array slot.  In the
second file the last record has a fourth field that is not a number: the code
appends it with the amount left in the slot, and then one more transaction
whose date is the unread field. -/
theorem loadDatabase_appends_partial_record :
    (loadDatabase scanHundredths junk0 sampleWallet
      (some "2024/02/01 income bonus 5.00\n2024/02/02 expense".toList)).1.entries =
      [ { date := "2024/02/01".toList, type := "income".toList,
          category := "bonus".toList, amount := 500 },
        { date := "2024/02/02".toList, type := "expense".toList,
          category := "food".toList, amount := 4000 } ] ∧
    (loadDatabase scanHundredths junk0 sampleWallet
      (some "2024/02/01 income bonus 5.00\n2024/02/02 expense gift abc".toList)).1.entries =
      [ { date := "2024/02/01".toList, type := "income".toList,
          category := "bonus".toList, amount := 500 },
        { date := "2024/02/02".toList, type := "expense".toList,
          category := "gift".toList, amount := 4000 },
        { date := "abc".toList, type := "expense".toList,
          category := "rent".toList, amount := 7000 } ] := by
  decide

/-- Loading a file of well-formed records into a well-formed wallet: the
stored sequence becomes the records of the file and their categories are
appended, in first-seen order, to the category list. -/
theorem loadDatabase_records (scanLf : List Char → Option α × Nat)
    (junk : Transaction α) (w : Wallet α) (content : List Char)
    (rs : List (Transaction α)) (hw : w.WF) (hrs : Records scanLf content rs) :
    (loadDatabase scanLf junk w (some content)).1.entries = rs ∧
    (loadDatabase scanLf junk w (some content)).1.categories =
      w.categories ++ firstOccurrences w.categories (rs.map (fun r => r.category)) := by
  obtain ⟨h1, h2, h3⟩ := hw
  have h := loadLoop_records scanLf junk content rs hrs (content.length + 1)
    { w with size := 0 } (by omega) ⟨h1, Nat.zero_le _, h3⟩ h3
  refine ⟨?_, h.2.2⟩
  have := h.2.1
  simpa [Wallet.entries, loadDatabase] using this

/-- C7 as stated fails: loading a file with one record into a wallet whose
category list is salary, food, rent replaces the transactions but keeps the
three categories, none of which occurs in the file. -/
theorem loadDatabase_keeps_categories_counterexample :
    sampleWallet.categories = ["salary".toList, "food".toList, "rent".toList] ∧
    (loadDatabase scanHundredths junk0 sampleWallet
      (some "2024/03/01 expense books 12.50\n".toList)).1.entries =
      [ { date := "2024/03/01".toList, type := "expense".toList,
          category := "books".toList, amount := 1250 } ] ∧
    (loadDatabase scanHundredths junk0 sampleWallet
      (some "2024/03/01 expense books 12.50\n".toList)).1.categories =
      ["salary".toList, "food".toList, "rent".toList, "books".toList] := by
  decide

/-- C7, amended: for every prior wallet state and every readable file made of
well-formed records, after `loadDatabase` the transaction sequence consists
exactly of the records of the file, in file order, with no transaction of the
prior state remaining; the category list is the prior category list followed
by the categories of the records that are not yet in it, each once, in
first-seen order (so it is exactly the distinct categories of the records when
the prior list is empty). -/
theorem loadDatabase_well_formed_file (scanLf : List Char → Option α × Nat)
    (junk : Transaction α) (w : Wallet α) (content : List Char)
    (rs : List (Transaction α)) (hw : w.WF) (hrs : Records scanLf content rs) :
    (loadDatabase scanLf junk w (some content)).2 = "Database loaded successfully.\n" ∧
    (loadDatabase scanLf junk w (some content)).1.entries = rs ∧
    (loadDatabase scanLf junk w (some content)).1.categories =
      w.categories ++ firstOccurrences w.categories (rs.map (fun r => r.category)) ∧
    (w.categories = [] →
      (loadDatabase scanLf junk w (some content)).1.categories =
        firstOccurrences [] (rs.map (fun r => r.category))) := by
  have h := loadDatabase_records scanLf junk w content rs hw hrs
  refine ⟨rfl, h.1, h.2, ?_⟩
  intro hnil
  rw [h.2, hnil, List.nil_append]

/-- C7 amended, at a concrete input: a file of two records, with different
spacing, loaded into a wallet that holds three transactions and the
categories salary, food, rent. -/
theorem loadDatabase_well_formed_file_witness :
    (loadDatabase scanHundredths junk0 sampleWallet
      (some "2024/03/01 expense books 12.50\n  2024/03/02\tincome salary 3\n".toList)).1.entries =
      [ { date := "2024/03/01".toList, type := "expense".toList,
          category := "books".toList, amount := 1250 },
        { date := "2024/03/02".toList, type := "income".toList,
          category := "salary".toList, amount := 300 } ] ∧
    (loadDatabase scanHundredths junk0 sampleWallet
      (some "2024/03/01 expense books 12.50\n  2024/03/02\tincome salary 3\n".toList)).1.categories =
      sampleWallet.categories ++ firstOccurrences sampleWallet.categories
        ["books".toList, "salary".toList] :=
  have h := loadDatabase_well_formed_file scanHundredths junk0 sampleWallet
    "2024/03/01 expense books 12.50\n  2024/03/02\tincome salary 3\n".toList
    [ { date := "2024/03/01".toList, type := "expense".toList,
        category := "books".toList, amount := 1250 },
      { date := "2024/03/02".toList, type := "income".toList,
        category := "salary".toList, amount := 300 } ]
    (by decide)
    (Records.record _ [] "2024/03/01".toList [' '] "expense".toList [' '] "books".toList [' ']
      "12.50".toList "\n  2024/03/02\tincome salary 3\n".toList 1250 _ (by decide)
      (by decide) (by decide) (by decide) (by decide) (by decide) (by decide) (by decide)
      ⟨⟨'1', "2.50".toList, by decide, by decide⟩, by decide⟩
      (Records.record _ "\n  ".toList "2024/03/02".toList ['\t'] "income".toList [' ']
        "salary".toList [' '] "3".toList "\n".toList 300 [] (by decide)
        (by decide) (by decide) (by decide) (by decide) (by decide) (by decide) (by decide)
        ⟨⟨'3', [], by decide, by decide⟩, by decide⟩
        (Records.done _ (by decide))))
  ⟨h.2.1, h.2.2.1⟩

/-! ## Reachable wallets -/

theorem addCategory_WF (w : Wallet α) (category : CStr) (hw : w.WF) :
    (addCategory w category).WF := by
  obtain ⟨h1, h2, h3⟩ := hw
  exact ⟨by simpa using h1, by simpa using h2, by simpa using h3⟩

theorem deleteEntry_WF (w : Wallet α) (hw : w.WF) (i : Nat) : (deleteEntry w i).1.WF := by
  by_cases hi : i < w.size
  · exact (deleteEntry_spec w hw i hi).1
  · simp [deleteEntry, hi, hw]

/-- The wallet inside the loop of `loadDatabase`, for any file: it stays well
formed, keeps a free slot, and keeps every property the loop body keeps. -/
theorem loadDatabase_preserves (scanLf : List Char → Option α × Nat) (junk : Transaction α)
    (P : Wallet α → Prop)
    (hP : ∀ w slot, w.WF → w.size < w.capacity → P w → P (loadBody junk w slot))
    (w : Wallet α) (hw : w.WF) (content : List Char) (h0 : P { w with size := 0 }) :
    (loadDatabase scanLf junk w (some content)).1.WF ∧
    P (loadDatabase scanLf junk w (some content)).1 := by
  obtain ⟨h1, h2, h3⟩ := hw
  have h := loadLoop_preserves scanLf junk P hP (content.length + 1) content
    { w with size := 0 } ⟨h1, Nat.zero_le _, h3⟩ h3 h0
  exact ⟨h.1, h.2.2⟩

theorem loadDatabase_WF (scanLf : List Char → Option α × Nat) (junk : Transaction α)
    (w : Wallet α) (hw : w.WF) (file : Option (List Char)) :
    (loadDatabase scanLf junk w file).1.WF := by
  cases file with
  | none => exact hw
  | some content =>
    exact (loadDatabase_preserves scanLf junk (fun _ => True) (fun _ _ _ _ _ => trivial)
      w hw content trivial).1

theorem applyOp_WF (scanLf : List Char → Option α × Nat) (junk : Transaction α)
    (w : Wallet α) (hw : w.WF) (op : Op α) : (applyOp scanLf junk w op).WF := by
  cases op with
  | addCategory category => exact addCategory_WF w category hw
  | addEntry date type category amount =>
    exact (addEntry_spec junk w hw date type category amount).1
  | editEntry index date type category amount =>
    exact editEntry_WF w hw index date type category amount
  | deleteEntry index => exact deleteEntry_WF w hw index
  | loadDatabase file => exact loadDatabase_WF scanLf junk w hw file

theorem run_append (scanLf : List Char → Option α × Nat) (junk : Transaction α)
    (ops : List (Op α)) (op : Op α) :
    run scanLf junk (ops ++ [op]) = applyOp scanLf junk (run scanLf junk ops) op := by
  simp [run, List.foldl_append]

/-- Every wallet reached from `initWallet` satisfies the representation
invariant. -/
theorem run_WF (scanLf : List Char → Option α × Nat) (junk : Transaction α)
    (ops : List (Op α)) : (run scanLf junk ops).WF := by
  induction ops using List.reverseRecOn with
  | nil => exact initWallet_WF junk
  | append_singleton ops op ih =>
    rw [run_append]
    exact applyOp_WF scanLf junk _ ih op

theorem mem_addCategory (w : Wallet α) (category c : CStr) :
    c ∈ (addCategory w category).categories ↔ c ∈ w.categories ∨ c = category := by
  rw [addCategory_categories]
  by_cases h : category ∈ w.categories
  · simp only [h, if_true]
    constructor
    · exact Or.inl
    · rintro (h1 | h1)
      · exact h1
      · rw [h1]; exact h
  · simp [h]

/-- The body of the loop of `loadDatabase` keeps the category of every stored
transaction in the category list. -/
theorem loadBody_cover (junk : Transaction α) (w : Wallet α) (slot : Transaction α)
    (hw : w.WF) (hlt : w.size < w.capacity)
    (h : ∀ t ∈ w.entries, t.category ∈ w.categories) :
    ∀ t ∈ (loadBody junk w slot).entries, t.category ∈ (loadBody junk w slot).categories := by
  obtain ⟨_, _, he, hc, _⟩ := loadBody_spec junk w slot hw hlt
  intro t ht
  rw [he] at ht
  rw [hc, mem_addCategory]
  rcases List.mem_append.1 ht with h1 | h1
  · exact Or.inl (h t h1)
  · rw [List.mem_singleton.1 h1]; exact Or.inr rfl

/-- After a successful `loadDatabase` into a well-formed wallet the category
of every stored transaction is in the category list, whatever the file. -/
theorem loadDatabase_cover (scanLf : List Char → Option α × Nat) (junk : Transaction α)
    (w : Wallet α) (hw : w.WF) (content : List Char) :
    ∀ t ∈ (loadDatabase scanLf junk w (some content)).1.entries,
      t.category ∈ (loadDatabase scanLf junk w (some content)).1.categories :=
  (loadDatabase_preserves scanLf junk
    (fun v => ∀ t ∈ v.entries, t.category ∈ v.categories)
    (fun v slot hv hlt h => loadBody_cover junk v slot hv hlt h) w hw content
    (by intro t ht; simp [Wallet.entries] at ht)).2

/-- Every operation other than `editEntry` keeps the category of every stored
transaction in the category list. -/
theorem applyOp_cover (scanLf : List Char → Option α × Nat) (junk : Transaction α)
    (w : Wallet α) (hw : w.WF) (op : Op α) (hop : op.isEdit = false)
    (h : ∀ t ∈ w.entries, t.category ∈ w.categories) :
    ∀ t ∈ (applyOp scanLf junk w op).entries,
      t.category ∈ (applyOp scanLf junk w op).categories := by
  cases op with
  | addCategory category =>
    intro t ht
    have ht2 : t ∈ w.entries := by
      simpa [applyOp, Wallet.entries] using ht
    exact (mem_addCategory w category _).2 (Or.inl (h t ht2))
  | addEntry date type category amount =>
    obtain ⟨_, he, _, hc⟩ := addEntry_spec junk w hw date type category amount
    intro t ht
    simp only [applyOp] at ht ⊢
    rw [he] at ht
    rw [hc, mem_addCategory]
    rcases List.mem_append.1 ht with h1 | h1
    · exact Or.inl (h t h1)
    · rw [List.mem_singleton.1 h1]; exact Or.inr rfl
  | editEntry index date type category amount => simp [Op.isEdit] at hop
  | deleteEntry index =>
    by_cases hi : index < w.size
    · obtain ⟨_, he, _, _, hc, _⟩ := deleteEntry_spec w hw index hi
      intro t ht
      simp only [applyOp] at ht ⊢
      rw [he] at ht
      rw [hc]
      exact h t (List.mem_of_mem_eraseIdx ht)
    · simpa [applyOp, deleteEntry, hi] using h
  | loadDatabase file =>
    cases file with
    | none => exact h
    | some content => exact loadDatabase_cover scanLf junk w hw content

theorem run_cover (scanLf : List Char → Option α × Nat) (junk : Transaction α)
    (ops : List (Op α)) (hops : ∀ op ∈ ops, op.isEdit = false) :
    ∀ t ∈ (run scanLf junk ops).entries, t.category ∈ (run scanLf junk ops).categories := by
  induction ops using List.reverseRecOn with
  | nil => intro t ht; simp [run, initWallet_entries] at ht
  | append_singleton ops op ih =>
    rw [run_append]
    exact applyOp_cover scanLf junk _ (run_WF scanLf junk ops) op
      (hops op (by simp)) (ih (fun o ho => hops o (by simp [ho])))

/-- After `addEntry` calls alone, every category in the list is the category
of a stored transaction. -/
theorem addEntries_categories_used (junk : Transaction α) (calls : List (Transaction α)) :
    ∀ c ∈ (addEntries junk (initWallet junk) calls).categories,
      ∃ t ∈ (addEntries junk (initWallet junk) calls).entries, t.category = c := by
  induction calls using List.reverseRecOn with
  | nil => intro c hc; simp [addEntries, initWallet] at hc
  | append_singleton cs x ih =>
    have hwf := (addEntries_spec junk (initWallet junk) (initWallet_WF junk) cs).1
    obtain ⟨_, he, _, hc⟩ := addEntry_spec junk _ hwf x.date x.type x.category x.amount
    rw [addEntries_append]
    intro c hcm
    rw [hc, mem_addCategory] at hcm
    rw [he]
    rcases hcm with h1 | h1
    · obtain ⟨t, ht, htc⟩ := ih c h1
      exact ⟨t, List.mem_append.2 (Or.inl ht), htc⟩
    · exact ⟨_, List.mem_append.2 (Or.inr (List.mem_singleton.2 rfl)), h1.symm⟩

theorem addEntries_cover (junk : Transaction α) (calls : List (Transaction α)) :
    ∀ t ∈ (addEntries junk (initWallet junk) calls).entries,
      t.category ∈ (addEntries junk (initWallet junk) calls).categories := by
  induction calls using List.reverseRecOn with
  | nil => intro t ht; simp [addEntries, initWallet_entries] at ht
  | append_singleton cs x ih =>
    have hwf := (addEntries_spec junk (initWallet junk) (initWallet_WF junk) cs).1
    obtain ⟨_, he, _, hc⟩ := addEntry_spec junk _ hwf x.date x.type x.category x.amount
    rw [addEntries_append]
    intro t ht
    rw [he] at ht
    rw [hc, mem_addCategory]
    rcases List.mem_append.1 ht with h1 | h1
    · exact Or.inl (ih t h1)
    · rw [List.mem_singleton.1 h1]; exact Or.inr rfl

/-- C6 as stated fails: after adding a salary entry, deleting it and adding a
food entry, the category list is salary, food although the store holds a
single transaction, of category food. -/
theorem category_set_counterexample :
    (run scanHundredths junk0
      [ Op.addEntry "2024/01/05".toList "income".toList "salary".toList 10000,
        Op.deleteEntry 0,
        Op.addEntry "2024/01/10".toList "expense".toList "food".toList 4000 ]).categories =
      ["salary".toList, "food".toList] ∧
    (run scanHundredths junk0
      [ Op.addEntry "2024/01/05".toList "income".toList "salary".toList 10000,
        Op.deleteEntry 0,
        Op.addEntry "2024/01/10".toList "expense".toList "food".toList 4000 ]).entries =
      [ { date := "2024/01/10".toList, type := "expense".toList,
          category := "food".toList, amount := 4000 } ] := by
  decide

/-- C6, amended: in every state reachable from `initWallet` by `addEntry`,
`editEntry`, `deleteEntry` and `loadDatabase` operations, immediately after an
`addEntry` the category list contains the category of the added transaction,
and immediately after a successful `loadDatabase` it contains the category of
every transaction in the store; when no `editEntry` occurred, it contains the
category of every stored transaction in every reachable state; and after
`addEntry` calls alone it equals, as a set, the set of categories of the
stored transactions.  (It may hold further categories otherwise.) -/
theorem category_set_after_add_or_load (scanLf : List Char → Option α × Nat)
    (junk : Transaction α) (ops : List (Op α)) :
    (∀ date type category amount,
      category ∈ (addEntry junk (run scanLf junk ops) date type category amount).1.categories) ∧
    (∀ content, ∀ t ∈ (loadDatabase scanLf junk (run scanLf junk ops) (some content)).1.entries,
      t.category ∈ (loadDatabase scanLf junk (run scanLf junk ops) (some content)).1.categories) ∧
    ((∀ op ∈ ops, op.isEdit = false) →
      ∀ t ∈ (run scanLf junk ops).entries, t.category ∈ (run scanLf junk ops).categories) ∧
    (∀ calls c, c ∈ (addEntries junk (initWallet junk) calls).categories ↔
      ∃ t ∈ (addEntries junk (initWallet junk) calls).entries, t.category = c) := by
  refine ⟨?_, ?_, run_cover scanLf junk ops, ?_⟩
  · intro date type category amount
    rw [(addEntry_spec junk _ (run_WF scanLf junk ops) date type category amount).2.2.2,
      mem_addCategory]
    exact Or.inr rfl
  · intro content
    exact loadDatabase_cover scanLf junk _ (run_WF scanLf junk ops) content
  · intro calls c
    constructor
    · exact addEntries_categories_used junk calls c
    · rintro ⟨t, ht, rfl⟩
      exact addEntries_cover junk calls t ht

/-- C6 amended, at a concrete input: an entry is added and deleted, a file
whose second record is incomplete is loaded, and an entry is added; the
category found in the never written slot of the incomplete record (the empty
string of `junk0`) is in the category list. -/
theorem category_set_after_add_or_load_witness :
    (run scanHundredths junk0
      [ Op.addEntry "2024/01/05".toList "income".toList "salary".toList 10000,
        Op.deleteEntry 0,
        Op.loadDatabase (some "2024/02/01 income bonus 5.00\n2024/02/02 expense".toList),
        Op.addEntry "2024/01/10".toList "expense".toList "food".toList 4000 ]).entries.map
        (fun t => t.category) = ["bonus".toList, [], "food".toList] ∧
    ([] : CStr) ∈ (run scanHundredths junk0
      [ Op.addEntry "2024/01/05".toList "income".toList "salary".toList 10000,
        Op.deleteEntry 0,
        Op.loadDatabase (some "2024/02/01 income bonus 5.00\n2024/02/02 expense".toList),
        Op.addEntry "2024/01/10".toList "expense".toList "food".toList 4000 ]).categories :=
  ⟨by decide,
   (category_set_after_add_or_load scanHundredths junk0
      [ Op.addEntry "2024/01/05".toList "income".toList "salary".toList 10000,
        Op.deleteEntry 0,
        Op.loadDatabase (some "2024/02/01 income bonus 5.00\n2024/02/02 expense".toList),
        Op.addEntry "2024/01/10".toList "expense".toList "food".toList 4000 ]).2.2.1
    (by decide)
    { date := "2024/02/02".toList, type := "expense".toList, category := [], amount := 0 }
    (by decide)⟩

/-! ## `saveDatabase` followed by `loadDatabase` -/

theorem save_foldl_append (fmt2 : α → List Char) (l : List (Transaction α))
    (out : List Char) :
    l.foldl (fun out t => out ++ fprintfLine fmt2 t) out =
      out ++ l.foldl (fun out t => out ++ fprintfLine fmt2 t) [] := by
  induction l generalizing out with
  | nil => simp
  | cons t ts ih =>
    rw [List.foldl_cons, List.foldl_cons, ih, ih ([] ++ fprintfLine fmt2 t)]
    simp [List.append_assoc]

/-- The lines `saveDatabase` writes for transactions whose strings are fields
and whose amounts are written as numbers form a file of well-formed records. -/
theorem records_of_saved_lines (scanLf : List Char → Option α × Nat) (fmt2 : α → List Char)
    (round2 : α → α) (l : List (Transaction α))
    (htok : ∀ t ∈ l, isToken 10 t.date ∧ isToken 7 t.type ∧ isToken 19 t.category)
    (hnum : ∀ t ∈ l, ∀ rest, readsNumber scanLf (fmt2 t.amount) ('\n' :: rest) (round2 t.amount))
    (pre : List Char) (hpre : isBlank pre) :
    Records scanLf (pre ++ l.foldl (fun out t => out ++ fprintfLine fmt2 t) [])
      (l.map (fun t => { t with amount := round2 t.amount })) := by
  induction l generalizing pre with
  | nil => simpa using Records.done pre hpre
  | cons t ts ih =>
    have ht := htok t (List.mem_cons_self _ _)
    have hn := hnum t (List.mem_cons_self _ _)
    have hsp : isGap [' '] := by decide
    have hnl : isBlank ['\n'] := by decide
    have ih2 := ih (fun u hu => htok u (List.mem_cons_of_mem _ hu))
      (fun u hu => hnum u (List.mem_cons_of_mem _ hu)) ['\n'] hnl
    rw [List.foldl_cons, save_foldl_append, List.map_cons]
    refine Records.record _ pre t.date [' '] t.type [' '] t.category [' '] (fmt2 t.amount)
      (['\n'] ++ ts.foldl (fun out t => out ++ fprintfLine fmt2 t) []) (round2 t.amount) _
      ?_ hpre ht.1 hsp ht.2.1 hsp ht.2.2 hsp (hn _) ih2
    simp [fprintfLine, List.append_assoc]

/-! ## Categories -/

theorem addCategory_of_mem (w : Wallet α) (name : CStr) (h : name ∈ w.categories) :
    addCategory w name = w := by
  unfold addCategory
  simp [(isCategoryExists_iff w name).2 h]

theorem addCategory_of_not_mem (w : Wallet α) (name : CStr) (h : name ∉ w.categories) :
    addCategory w name = { w with categories := w.categories ++ [name] } := by
  have h2 : isCategoryExists w name = false := by
    cases hb : isCategoryExists w name
    · rfl
    · exact absurd ((isCategoryExists_iff w name).1 hb) h
  unfold addCategory
  simp [h2]

/-- C13: `addCategory` is idempotent.  For every wallet and every name,
calling `addCategory(name)` twice gives the same wallet, hence the same
category list (same count, same elements, same order), as calling it once;
and calling it with a name already present leaves the wallet, hence the
category list, unchanged. -/
theorem addCategory_idempotent (w : Wallet α) (name : CStr) :
    addCategory (addCategory w name) name = addCategory w name ∧
    (addCategory (addCategory w name) name).categories = (addCategory w name).categories ∧
    (addCategory (addCategory w name) name).categoryCount =
      (addCategory w name).categoryCount ∧
    (name ∈ w.categories → addCategory w name = w) := by
  have h1 : addCategory (addCategory w name) name = addCategory w name := by
    apply addCategory_of_mem
    rw [mem_addCategory]
    exact Or.inr rfl
  exact ⟨h1, by rw [h1], by rw [h1], addCategory_of_mem w name⟩

/-- C13, at concrete inputs: a new name added twice to a wallet with three
categories, and a name that is already present. -/
theorem addCategory_idempotent_witness :
    (addCategory (addCategory sampleWallet "books".toList) "books".toList).categories =
      ["salary".toList, "food".toList, "rent".toList, "books".toList] ∧
    (addCategory sampleWallet "books".toList).categories =
      ["salary".toList, "food".toList, "rent".toList, "books".toList] ∧
    addCategory sampleWallet "food".toList = sampleWallet :=
  ⟨(addCategory_idempotent sampleWallet "books".toList).2.1.trans (by decide), by decide,
   (addCategory_idempotent sampleWallet "food".toList).2.2.2 (by decide)⟩

theorem editEntry_categories (w : Wallet α) (index : Nat) (date type category : CStr)
    (amount : α) : (editEntry w index date type category amount).1.categories = w.categories := by
  unfold editEntry; split <;> rfl

theorem deleteEntry_categories (w : Wallet α) (index : Nat) :
    (deleteEntry w index).1.categories = w.categories := by
  unfold deleteEntry; split <;> rfl

theorem addEntry_categories (junk : Transaction α) (w : Wallet α) (date type category : CStr)
    (amount : α) :
    (addEntry junk w date type category amount).1.categories =
      (addCategory w category).categories := by
  unfold addEntry
  simp only [addCategory_categories]
  split <;> rfl

/-- C15: `editEntry` and `deleteEntry` never change the category list.  For
every wallet and every index, valid or not, the category list after the call
is the one before, in content and order; so it is when the edit introduces a
category that is not in the list (books), and when the delete removes the
last transaction of a category (rent). -/
theorem edit_delete_keep_categories (w : Wallet α) (index : Nat)
    (date type category : CStr) (amount : α) :
    (editEntry w index date type category amount).1.categories = w.categories ∧
    (deleteEntry w index).1.categories = w.categories ∧
    ((editEntry sampleWallet 1 "2024/01/10".toList "expense".toList "books".toList
        4000).1.entries.map (fun t => t.category) =
        ["salary".toList, "books".toList, "rent".toList] ∧
      (editEntry sampleWallet 1 "2024/01/10".toList "expense".toList "books".toList
        4000).1.categories = ["salary".toList, "food".toList, "rent".toList]) ∧
    ((deleteEntry sampleWallet 2).1.entries.map (fun t => t.category) =
        ["salary".toList, "food".toList] ∧
      (deleteEntry sampleWallet 2).1.categories =
        ["salary".toList, "food".toList, "rent".toList]) := by
  exact ⟨editEntry_categories w index date type category amount,
    deleteEntry_categories w index, by decide, by decide⟩

theorem listCategories_foldl (cs : List CStr) (out : List Char) :
    cs.foldl (fun out c => out ++ "- ".toList ++ c ++ ['\n']) out =
      out ++ (cs.map (fun c => "- ".toList ++ c ++ ['\n'])).flatten := by
  induction cs generalizing out with
  | nil => simp
  | cons c cs ih =>
    rw [List.foldl_cons, ih, List.map_cons, List.flatten_cons]
    simp only [List.append_assoc]

/-- C16: `listCategories` prints the `No categories available` message on a
freshly initialised store; for every wallet it takes that branch exactly when
the category count is 0; otherwise it prints the heading followed by one line
per entry of the category list, each once, in insertion order. -/
theorem listCategories_output (junk : Transaction α) (w : Wallet α) :
    listCategories (initWallet junk) = "No categories available.\n".toList ∧
    (listCategories w = "No categories available.\n".toList ↔ w.categoryCount = 0) ∧
    (w.categoryCount ≠ 0 →
      listCategories w = "Categories:\n".toList ++
        (w.categories.map (fun c => "- ".toList ++ c ++ ['\n'])).flatten) := by
  have hpos : w.categoryCount ≠ 0 →
      listCategories w = "Categories:\n".toList ++
        (w.categories.map (fun c => "- ".toList ++ c ++ ['\n'])).flatten := by
    intro h
    have hgt : w.categoryCount > 0 := Nat.pos_of_ne_zero h
    unfold listCategories
    rw [if_pos hgt, listCategories_foldl]
  refine ⟨rfl, ⟨?_, ?_⟩, hpos⟩
  · intro h
    by_contra hne
    rw [hpos hne] at h
    have h2 := congrArg List.head? h
    revert h2
    simp
  · intro h
    unfold listCategories
    rw [if_neg (by omega)]

/-- C16, at a concrete input: a wallet with three categories. -/
theorem listCategories_output_witness :
    listCategories sampleWallet = "Categories:\n- salary\n- food\n- rent\n".toList :=
  ((listCategories_output junk0 sampleWallet).2.2 (by decide)).trans (by decide)

theorem addEntries_cons (junk : Transaction α) (w : Wallet α) (c : Transaction α)
    (cs : List (Transaction α)) :
    addEntries junk w (c :: cs) =
      addEntries junk (addEntry junk w c.date c.type c.category c.amount).1 cs := by
  simp [addEntries]

/-- A sequence of `addEntry` calls appends to the category list the categories
of the calls that are not yet in it, each once, in the order of the calls. -/
theorem addEntries_categories (junk : Transaction α) (w : Wallet α)
    (calls : List (Transaction α)) :
    (addEntries junk w calls).categories =
      w.categories ++ firstOccurrences w.categories (calls.map (fun c => c.category)) := by
  induction calls generalizing w with
  | nil => simp [addEntries, firstOccurrences]
  | cons c cs ih =>
    rw [addEntries_cons, ih, addEntry_categories, addCategory_categories, List.map_cons]
    exact firstOccurrences_cons w.categories c.category (cs.map (fun c => c.category))

theorem indexOf_cons_ne_cstr (x c : CStr) (l : List CStr) (h : x ≠ c) :
    (x :: l).indexOf c = l.indexOf c + 1 := by
  have hb : (x == c) = false := by
    cases hxc : x == c
    · rfl
    · exact absurd (eq_of_beq hxc) h
  rw [List.indexOf_cons, hb]
  rfl

theorem indexOf_cons_self_cstr (x : CStr) (l : List CStr) : (x :: l).indexOf x = 0 := by
  simp [List.indexOf_cons]

/-- The list `firstOccurrences seen l` is ordered by first occurrence in `l`. -/
theorem firstOccurrences_pairwise (seen l : List CStr) :
    (firstOccurrences seen l).Pairwise (fun c d => l.indexOf c < l.indexOf d) := by
  induction l generalizing seen with
  | nil => simp [firstOccurrences]
  | cons x xs ih =>
    by_cases hx : x ∈ seen
    · simp only [firstOccurrences, hx, if_true]
      refine List.Pairwise.imp_of_mem ?_ (ih seen)
      intro c d hc hd hlt
      have hcx : x ≠ c := by
        rintro rfl; exact ((firstOccurrences_mem seen xs x).1 hc).2 hx
      have hdx : x ≠ d := by
        rintro rfl; exact ((firstOccurrences_mem seen xs x).1 hd).2 hx
      rw [indexOf_cons_ne_cstr _ _ _ hcx, indexOf_cons_ne_cstr _ _ _ hdx]
      omega
    · simp only [firstOccurrences, hx, if_false, List.pairwise_cons]
      constructor
      · intro d hd
        have hdx : x ≠ d := by
          rintro rfl
          exact ((firstOccurrences_mem _ xs x).1 hd).2 (by simp)
        rw [indexOf_cons_self_cstr, indexOf_cons_ne_cstr _ _ _ hdx]
        omega
      · refine List.Pairwise.imp_of_mem ?_ (ih (seen ++ [x]))
        intro c d hc hd hlt
        have hcx : x ≠ c := by
          rintro rfl; exact ((firstOccurrences_mem _ xs x).1 hc).2 (by simp)
        have hdx : x ≠ d := by
          rintro rfl; exact ((firstOccurrences_mem _ xs x).1 hd).2 (by simp)
        rw [indexOf_cons_ne_cstr _ _ _ hcx, indexOf_cons_ne_cstr _ _ _ hdx]
        omega

/-- C17: for every sequence of `addEntry` calls applied to a freshly
initialised wallet, the resulting category list is the list of the categories
of the added transactions with later duplicates removed: it has the same
members as that list (compared by exact string equality), no member twice,
and its members are ordered by their first occurrence in the transaction
sequence. -/
theorem addEntry_calls_categories (junk : Transaction α) (calls : List (Transaction α)) :
    (addEntries junk (initWallet junk) calls).categories =
      firstOccurrences [] (calls.map (fun c => c.category)) ∧
    (∀ c, c ∈ (addEntries junk (initWallet junk) calls).categories ↔
      c ∈ (addEntries junk (initWallet junk) calls).entries.map (fun t => t.category)) ∧
    (addEntries junk (initWallet junk) calls).categories.Nodup ∧
    (addEntries junk (initWallet junk) calls).categories.Pairwise
      (fun c d =>
        ((addEntries junk (initWallet junk) calls).entries.map (fun t => t.category)).indexOf c <
        ((addEntries junk (initWallet junk) calls).entries.map (fun t => t.category)).indexOf d) := by
  have he : (addEntries junk (initWallet junk) calls).entries = calls := by
    have := (addEntries_spec junk (initWallet junk) (initWallet_WF junk) calls).2.1
    rw [this, initWallet_entries, List.nil_append]
  have hc : (addEntries junk (initWallet junk) calls).categories =
      firstOccurrences [] (calls.map (fun c => c.category)) := by
    rw [addEntries_categories]
    simp [initWallet]
  rw [he, hc]
  refine ⟨rfl, ?_, firstOccurrences_nodup _ _, firstOccurrences_pairwise _ _⟩
  intro c
  rw [firstOccurrences_mem]
  simp

/-- C17, at a concrete input: five calls with the categories food, rent, food,
salary, rent. -/
theorem addEntry_calls_categories_witness :
    (addEntries junk0 (initWallet junk0)
      (["food", "rent", "food", "salary", "rent"].map (fun c =>
        { date := "2024/01/01".toList, type := "expense".toList,
          category := c.toList, amount := (100 : Int) }))).categories =
      ["food".toList, "rent".toList, "salary".toList] := by
  rw [(addEntry_calls_categories junk0
      (["food", "rent", "food", "salary", "rent"].map (fun c =>
        { date := "2024/01/01".toList, type := "expense".toList,
          category := c.toList, amount := (100 : Int) }))).1]
  decide

theorem addCategory_nodup (w : Wallet α) (name : CStr) (h : w.categories.Nodup) :
    (addCategory w name).categories.Nodup := by
  rw [addCategory_categories]
  by_cases hm : name ∈ w.categories
  · simpa [hm] using h
  · simp only [hm, if_false]
    rw [List.nodup_append]
    refine ⟨h, List.nodup_singleton _, ?_⟩
    intro c hc hc2
    rw [List.mem_singleton] at hc2
    exact hm (hc2 ▸ hc)

/-- No operation introduces a duplicate into the category list. -/
theorem applyOp_nodup (scanLf : List Char → Option α × Nat) (junk : Transaction α)
    (w : Wallet α) (hw : w.WF) (op : Op α) (h : w.categories.Nodup) :
    (applyOp scanLf junk w op).categories.Nodup := by
  cases op with
  | addCategory category => exact addCategory_nodup w category h
  | addEntry date type category amount =>
    simp only [applyOp]
    rw [addEntry_categories]
    exact addCategory_nodup w category h
  | editEntry index date type category amount =>
    simp only [applyOp]
    rw [editEntry_categories]; exact h
  | deleteEntry index =>
    simp only [applyOp]
    rw [deleteEntry_categories]; exact h
  | loadDatabase file =>
    cases file with
    | none => exact h
    | some content =>
      exact (loadDatabase_preserves scanLf junk (fun v => v.categories.Nodup)
        (fun v slot hv hlt hn => by
          show (loadBody junk v slot).categories.Nodup
          rw [(loadBody_spec junk v slot hv hlt).2.2.2.1]
          exact addCategory_nodup v slot.category hn)
        w hw content h).2

/-- C18: the category list never contains duplicates.  In every state
reachable from `initWallet` by any sequence of `addCategory`, `addEntry`,
`editEntry`, `deleteEntry` and `loadDatabase` operations, no two positions of
the category list hold equal strings. -/
theorem categories_nodup (scanLf : List Char → Option α × Nat) (junk : Transaction α)
    (ops : List (Op α)) :
    (run scanLf junk ops).categories.Nodup ∧
    ∀ i j, i < j → j < (run scanLf junk ops).categoryCount →
      (run scanLf junk ops).categories[i]? ≠ (run scanLf junk ops).categories[j]? := by
  have hn : (run scanLf junk ops).categories.Nodup := by
    induction ops using List.reverseRecOn with
    | nil => simp [run, initWallet]
    | append_singleton ops op ih =>
      rw [run_append]
      exact applyOp_nodup scanLf junk _ (run_WF scanLf junk ops) op ih
  refine ⟨hn, ?_⟩
  intro i j hij hj heq
  unfold Wallet.categoryCount at hj
  have hi : i < (run scanLf junk ops).categories.length := by omega
  rw [List.getElem?_eq_getElem hi, List.getElem?_eq_getElem hj] at heq
  have := (List.Nodup.getElem_inj_iff hn).1 (Option.some.inj heq)
  omega

/-! ## `saveDatabase` -/

theorem save_foldl_flatten (fmt2 : α → List Char) (l : List (Transaction α)) :
    l.foldl (fun out t => out ++ fprintfLine fmt2 t) [] =
      (l.map (fprintfLine fmt2)).flatten := by
  induction l with
  | nil => rfl
  | cons t ts ih =>
    rw [List.foldl_cons, save_foldl_append, ih, List.map_cons, List.flatten_cons,
      List.nil_append]

theorem entries_length (w : Wallet α) (hw : w.WF) : w.entries.length = w.size := by
  obtain ⟨h1, h2, _⟩ := hw
  simp only [Wallet.entries, List.length_take]
  omega

/-! ## Storage bounds -/

theorem addEntry_capacity (junk : Transaction α) (w : Wallet α) (date type category : CStr)
    (amount : α) :
    (addEntry junk w date type category amount).1.capacity =
      if w.size ≥ w.capacity then w.capacity * 2 else w.capacity := by
  unfold addEntry
  simp only [addCategory_capacity]
  split <;> rfl

theorem loadBody_capacity_le (junk : Transaction α) (w : Wallet α) (slot : Transaction α) :
    w.capacity ≤ (loadBody junk w slot).capacity := by
  unfold loadBody
  simp only []
  split
  · simp only [grow, addCategory_capacity]; omega
  · simp only [addCategory_capacity]; exact Nat.le_refl _

/-- No operation decreases the capacity. -/
theorem applyOp_capacity_le (scanLf : List Char → Option α × Nat) (junk : Transaction α)
    (w : Wallet α) (hw : w.WF) (op : Op α) :
    w.capacity ≤ (applyOp scanLf junk w op).capacity := by
  cases op with
  | addCategory category => simp [applyOp]
  | addEntry date type category amount =>
    simp only [applyOp, addEntry_capacity]
    split <;> omega
  | editEntry index date type category amount =>
    simp only [applyOp, editEntry]
    split <;> exact Nat.le_refl _
  | deleteEntry index =>
    simp only [applyOp, deleteEntry]
    split <;> exact Nat.le_refl _
  | loadDatabase file =>
    cases file with
    | none => exact Nat.le_refl _
    | some content =>
      exact (loadDatabase_preserves scanLf junk (fun v => w.capacity ≤ v.capacity)
        (fun v slot _ _ hv => Nat.le_trans hv (loadBody_capacity_le junk v slot))
        w hw content (Nat.le_refl _)).2

theorem run_capacity (scanLf : List Char → Option α × Nat) (junk : Transaction α)
    (ops : List (Op α)) : 10 ≤ (run scanLf junk ops).capacity := by
  induction ops using List.reverseRecOn with
  | nil => simp [run, initWallet]
  | append_singleton ops op ih =>
    rw [run_append]
    exact Nat.le_trans ih (applyOp_capacity_le scanLf junk _ (run_WF scanLf junk ops) op)

/-- Every call of `fscanf` in the loop of `loadDatabase` is handed a slot of
the array. -/
theorem loadLoopSlots_in_bounds (scanLf : List Char → Option α × Nat) (junk : Transaction α)
    (fuel : Nat) (input : List Char) (w : Wallet α) (hw : w.WF) (hlt : w.size < w.capacity) :
    ∀ p ∈ loadLoopSlots scanLf junk fuel input w, p.1 < p.2 := by
  induction fuel generalizing input w with
  | zero => intro p hp; simp [loadLoopSlots] at hp
  | succ f ih =>
    intro p hp
    simp only [loadLoopSlots, List.mem_cons] at hp
    rcases hp with rfl | hp
    · exact hlt
    · split at hp
      · have hb := loadBody_spec junk w
          (fscanf scanLf input (w.transactions.getD w.size junk)).2.1 hw hlt
        exact ih _ _ hb.1 hb.2.1 p hp
      · simp at hp

/-- C19: storage bounds are respected.  In every state reachable from
`initWallet` by `addEntry`, `editEntry`, `deleteEntry` and `loadDatabase`
operations (on natural numbers, so without `size_t` overflow): the capacity is
at least 10 and is the number of slots of the array, `size` is at most the
capacity, no operation decreases the capacity, `addEntry` writes the slot of
index `size`, which is below the capacity in force after its growth step (the
capacity it returns), and every slot `loadDatabase` hands to `fscanf` has an
index below the capacity in force at that call. -/
theorem storage_bounds (scanLf : List Char → Option α × Nat) (junk : Transaction α)
    (ops : List (Op α)) :
    10 ≤ (run scanLf junk ops).capacity ∧
    (run scanLf junk ops).transactions.length = (run scanLf junk ops).capacity ∧
    (run scanLf junk ops).size ≤ (run scanLf junk ops).capacity ∧
    (∀ op, (run scanLf junk ops).capacity ≤
      (applyOp scanLf junk (run scanLf junk ops) op).capacity) ∧
    (∀ date type category amount,
      (run scanLf junk ops).size <
        (addEntry junk (run scanLf junk ops) date type category amount).1.capacity ∧
      (addEntry junk (run scanLf junk ops) date type category
          amount).1.transactions[(run scanLf junk ops).size]? =
        some { date := date, type := type, category := category, amount := amount }) ∧
    (∀ content, ∀ p ∈ loadLoopSlots scanLf junk (content.length + 1) content
        { run scanLf junk ops with size := 0 }, p.1 < p.2) := by
  have hw := run_WF scanLf junk ops
  obtain ⟨h1, h2, h3⟩ := hw
  refine ⟨run_capacity scanLf junk ops, h1, h2,
    applyOp_capacity_le scanLf junk _ (run_WF scanLf junk ops), ?_, ?_⟩
  · intro date type category amount
    obtain ⟨_, he, hs, _⟩ := addEntry_spec junk _ (run_WF scanLf junk ops) date type category
      amount
    constructor
    · rw [addEntry_capacity]; split <;> omega
    · rw [← entries_getElem? _ _ (by omega), he]
      have hl : (run scanLf junk ops).entries.length = (run scanLf junk ops).size :=
        entries_length _ (run_WF scanLf junk ops)
      rw [List.getElem?_append_right (by omega), hl]
      simp
  · intro content
    exact loadLoopSlots_in_bounds scanLf junk _ content _ ⟨h1, Nat.zero_le _, h3⟩ h3

/-- C19, at a concrete input: after eleven `addEntry` calls, a delete and
an edit the capacity is 20, and loading a file of two records into that
wallet uses the slots 0, 1 and 2 of 20. -/
theorem storage_bounds_witness :
    (run scanHundredths junk0
      ((List.replicate 11 (Op.addEntry "2024/01/01".toList "expense".toList "food".toList 100))
        ++ [Op.deleteEntry 3,
            Op.editEntry 0 "2024/01/02".toList "income".toList "salary".toList 5]
      )).capacity = 20 ∧
    loadLoopSlots scanHundredths junk0 100 "a b c 1\na b c 2\n".toList
      { run scanHundredths junk0
          ((List.replicate 11
              (Op.addEntry "2024/01/01".toList "expense".toList "food".toList 100))
            ++ [Op.deleteEntry 3,
                Op.editEntry 0 "2024/01/02".toList "income".toList "salary".toList 5])
        with size := 0 } = [(0, 20), (1, 20), (2, 20)] ∧
    10 ≤ (run scanHundredths junk0
      ((List.replicate 11 (Op.addEntry "2024/01/01".toList "expense".toList "food".toList 100))
        ++ [Op.deleteEntry 3,
            Op.editEntry 0 "2024/01/02".toList "income".toList "salary".toList 5]
      )).capacity :=
  ⟨by decide, by decide,
   (storage_bounds scanHundredths junk0
      ((List.replicate 11 (Op.addEntry "2024/01/01".toList "expense".toList "food".toList 100))
        ++ [Op.deleteEntry 3,
            Op.editEntry 0 "2024/01/02".toList "income".toList "salary".toList 5])).1⟩

/-! ## `displayStats` -/

theorem cons_lt_cons_iff_cstr (a b : Char) (as bs : CStr) :
    (a :: as : CStr) < b :: bs ↔ a < b ∨ (a = b ∧ as < bs) := by
  constructor
  · intro h
    cases h with
    | cons h => exact Or.inr ⟨rfl, h⟩
    | rel h => exact Or.inl h
  · rintro (h | ⟨rfl, h⟩)
    · exact List.Lex.rel h
    · exact List.Lex.cons h

/-- The function `strcmp` is negative exactly when its first argument comes
first in the lexicographic order of the characters. -/
theorem strcmp_neg_iff (a b : CStr) : strcmp a b < 0 ↔ a < b := by
  induction a generalizing b with
  | nil =>
    cases b with
    | nil => simp [strcmp]
    | cons y ys => simp [strcmp, List.nil_lt_cons]
  | cons x xs ih =>
    cases b with
    | nil =>
      simp only [strcmp]
      constructor
      · intro h; omega
      · intro h; exact absurd h (List.Lex.not_nil_right _ _)
    | cons y ys =>
      rw [cons_lt_cons_iff_cstr]
      by_cases hxy : x = y
      · subst hxy
        simp [strcmp, ih]
      · by_cases hlt : x < y
        · simp [strcmp, hxy, hlt]
        · simp [strcmp, hxy, hlt]

theorem strcmp_pos_iff (a b : CStr) : 0 < strcmp a b ↔ b < a := by
  induction a generalizing b with
  | nil =>
    cases b with
    | nil => simp [strcmp]
    | cons y ys =>
      simp only [strcmp]
      constructor
      · intro h; omega
      · intro h; exact absurd h (List.Lex.not_nil_right _ _)
  | cons x xs ih =>
    cases b with
    | nil => simp [strcmp, List.nil_lt_cons]
    | cons y ys =>
      rw [cons_lt_cons_iff_cstr]
      by_cases hxy : x = y
      · subst hxy
        simp [strcmp, ih]
      · have hyx : ¬ y = x := fun e => hxy e.symm
        by_cases hlt : x < y
        · have : ¬ y < x := not_lt.2 (le_of_lt hlt)
          simp [strcmp, hxy, hyx, hlt, this]
        · have : y < x := lt_of_le_of_ne (not_lt.1 hlt) hyx
          simp [strcmp, hxy, hyx, hlt, this]

/-- The test of `displayStats`, `strcmp(date, startDate) >= 0 &&
strcmp(date, endDate) <= 0`, holds exactly when the date lies between the two
bounds, both included, in the lexicographic order. -/
theorem date_in_range_iff (date startDate endDate : CStr) :
    (strcmp date startDate ≥ 0 ∧ strcmp date endDate ≤ 0) ↔
      (startDate ≤ date ∧ date ≤ endDate) := by
  have n := strcmp_neg_iff date startDate
  have p := strcmp_pos_iff date endDate
  have h1 : strcmp date startDate ≥ 0 ↔ startDate ≤ date := by
    constructor
    · intro h
      exact not_lt.1 (fun hlt => by have := n.2 hlt; omega)
    · intro h
      have hn : ¬ date < startDate := not_lt.2 h
      by_contra hc
      exact hn (n.1 (by omega))
  have h2 : strcmp date endDate ≤ 0 ↔ date ≤ endDate := by
    constructor
    · intro h
      exact not_lt.1 (fun hlt => by have := p.2 hlt; omega)
    · intro h
      have hn : ¬ endDate < date := not_lt.2 h
      by_contra hc
      exact hn (p.1 (by omega))
  rw [h1, h2]

theorem statsStep_eq [Add α] (startDate endDate : CStr) (acc : α × α) (t : Transaction α) :
    statsStep startDate endDate acc t =
      if startDate ≤ t.date ∧ t.date ≤ endDate then
        if t.type = "income".toList then (acc.1 + t.amount, acc.2)
        else if t.type = "expense".toList then (acc.1, acc.2 + t.amount)
        else acc
      else acc := by
  unfold statsStep
  simp only [date_in_range_iff, strcmp_eq_zero_iff]

/-- The two sums of the loop of `displayStats`, from any starting values. -/
theorem stats_foldl [Add α] (startDate endDate : CStr) (l : List (Transaction α))
    (acc : α × α) :
    (l.foldl (statsStep startDate endDate) acc).1 =
      ((l.filter (fun t => t.type = "income".toList ∧
          startDate ≤ t.date ∧ t.date ≤ endDate)).map (fun t => t.amount)).foldl
        (fun s a => s + a) acc.1 ∧
    (l.foldl (statsStep startDate endDate) acc).2 =
      ((l.filter (fun t => t.type = "expense".toList ∧
          startDate ≤ t.date ∧ t.date ≤ endDate)).map (fun t => t.amount)).foldl
        (fun s a => s + a) acc.2 := by
  induction l generalizing acc with
  | nil => exact ⟨rfl, rfl⟩
  | cons t ts ih =>
    rw [List.foldl_cons]
    obtain ⟨ih1, ih2⟩ := ih (statsStep startDate endDate acc t)
    rw [ih1, ih2, statsStep_eq]
    generalize hinc : "income".toList = inc at *
    generalize hexp : "expense".toList = exp at *
    have hne : inc ≠ exp := by rw [← hinc, ← hexp]; decide
    by_cases hr : startDate ≤ t.date ∧ t.date ≤ endDate
    · by_cases hi : t.type = inc
      · have he : ¬ t.type = exp := by rw [hi]; exact hne
        simp [List.filter_cons, hr, hi, hne]
      · by_cases he : t.type = exp
        · simp [List.filter_cons, hr, he, hne.symm]
        · simp [List.filter_cons, hr, hi, he]
    · have h1 : ¬ (t.type = inc ∧ startDate ≤ t.date ∧ t.date ≤ endDate) := fun h => hr h.2
      have h2 : ¬ (t.type = exp ∧ startDate ≤ t.date ∧ t.date ≤ endDate) := fun h => hr h.2
      simp [List.filter_cons, hr, h1, h2]

/-- C12: for every wallet and every pair of strings `startDate`, `endDate`,
`displayStats` computes `totalIncome` (resp. `totalExpenses`) as the sum,
accumulated from 0.0 in store order, of `amount` over exactly those income
(resp. expense) transactions whose date string `d` satisfies
`startDate <= d <= endDate` in the lexicographic order of the characters,
both bounds included.  A transaction dated "2024/02/01" is excluded from the
range "2024/01/01".."2024/01/31", and transactions dated on the bounds of
"2024/01/05".."2024/01/10" are included. -/
theorem displayStats_sums_in_range [Zero α] [Add α] (w : Wallet α)
    (startDate endDate : CStr) :
    (displayStats w startDate endDate).1 =
      ((w.entries.filter (fun t => t.type = "income".toList ∧
          startDate ≤ t.date ∧ t.date ≤ endDate)).map (fun t => t.amount)).foldl
        (fun s a => s + a) 0 ∧
    (displayStats w startDate endDate).2 =
      ((w.entries.filter (fun t => t.type = "expense".toList ∧
          startDate ≤ t.date ∧ t.date ≤ endDate)).map (fun t => t.amount)).foldl
        (fun s a => s + a) 0 ∧
    displayStats
      (addEntry junk0 sampleWallet "2024/02/01".toList "income".toList "bonus".toList 500).1
      "2024/01/01".toList "2024/01/31".toList = (10000, 11000) ∧
    displayStats
      (addEntry junk0 (initWallet junk0) "2024/02/01".toList "income".toList
        "bonus".toList 500).1
      "2024/01/01".toList "2024/01/31".toList = (0, 0) ∧
    displayStats sampleWallet "2024/01/05".toList "2024/01/10".toList = (10000, 4000) := by
  refine ⟨?_, ?_, by decide, by decide, by decide⟩
  · exact (stats_foldl startDate endDate w.entries (0, 0)).1
  · exact (stats_foldl startDate endDate w.entries (0, 0)).2

/-! ## Decimal digits -/

theorem isDigit_cases (c : Char) (h : c.isDigit = true) :
    c ∈ ['0', '1', '2', '3', '4', '5', '6', '7', '8', '9'] := by
  have h1 : 48 ≤ c.toNat ∧ c.toNat ≤ 57 := by
    simp only [Char.isDigit, Bool.and_eq_true, decide_eq_true_eq] at h
    exact ⟨h.1, h.2⟩
  have h2 : c = Char.ofNat c.toNat := (Char.ofNat_toNat c).symm
  obtain ⟨h3, h4⟩ := h1
  generalize c.toNat = n at h2 h3 h4
  subst h2
  interval_cases n <;> decide

theorem digitChar_isDigit (m : Nat) (h : m < 10) : (Nat.digitChar m).isDigit = true := by
  interval_cases m <;> decide

theorem digitChar_value (m : Nat) (h : m < 10) :
    (Nat.digitChar m).toNat - '0'.toNat = m := by
  interval_cases m <;> decide

theorem digitsValue_append_singleton (ds : List Char) (c : Char) :
    digitsValue (ds ++ [c]) = 10 * digitsValue ds + (c.toNat - '0'.toNat) := by
  simp [digitsValue, List.foldl_append]

/-- The digits `Nat.toDigits` writes: at least one, all decimal, and their
value is the number written. -/
theorem toDigitsCore_spec (fuel n : Nat) (ds : List Char) (h : n < fuel) :
    ∃ pre, Nat.toDigitsCore 10 fuel n ds = pre ++ ds ∧ pre ≠ [] ∧
      (∀ c ∈ pre, c.isDigit = true) ∧ digitsValue pre = n := by
  induction fuel generalizing n ds with
  | zero => omega
  | succ f ih =>
    simp only [Nat.toDigitsCore]
    by_cases h0 : n / 10 = 0
    · rw [if_pos h0]
      refine ⟨[Nat.digitChar (n % 10)], rfl, by simp, ?_, ?_⟩
      · intro c hc
        rw [List.mem_singleton] at hc
        rw [hc]
        exact digitChar_isDigit _ (Nat.mod_lt _ (by decide))
      · have := digitsValue_append_singleton [] (Nat.digitChar (n % 10))
        rw [List.nil_append, digitChar_value _ (Nat.mod_lt _ (by decide))] at this
        rw [this]
        simp only [digitsValue, List.foldl_nil]
        omega
    · rw [if_neg h0]
      obtain ⟨pre, e, hne, hd, hv⟩ := ih (n / 10) (Nat.digitChar (n % 10) :: ds) (by omega)
      refine ⟨pre ++ [Nat.digitChar (n % 10)], ?_, by simp, ?_, ?_⟩
      · rw [e]; simp
      · intro c hc
        rcases List.mem_append.1 hc with hc | hc
        · exact hd c hc
        · rw [List.mem_singleton] at hc
          rw [hc]
          exact digitChar_isDigit _ (Nat.mod_lt _ (by decide))
      · rw [digitsValue_append_singleton, hv, digitChar_value _ (Nat.mod_lt _ (by decide))]
        omega

theorem toDigits_spec (n : Nat) :
    Nat.toDigits 10 n ≠ [] ∧ (∀ c ∈ Nat.toDigits 10 n, c.isDigit = true) ∧
      digitsValue (Nat.toDigits 10 n) = n := by
  obtain ⟨pre, e, hne, hd, hv⟩ := toDigitsCore_spec (n + 1) n [] (by omega)
  rw [List.append_nil] at e
  unfold Nat.toDigits
  rw [e]
  exact ⟨hne, hd, hv⟩

theorem takeWhile_digits (ds : List Char) (c : Char) (r : List Char)
    (hd : ∀ d ∈ ds, d.isDigit = true) (hc : c.isDigit = false) :
    (ds ++ c :: r).takeWhile Char.isDigit = ds ∧
    (ds ++ c :: r).dropWhile Char.isDigit = c :: r := by
  induction ds with
  | nil => simp [List.takeWhile, List.dropWhile, hc]
  | cons d ds ih =>
    have h1 := hd d (List.mem_cons_self _ _)
    have h2 := ih (fun x hx => hd x (List.mem_cons_of_mem _ hx))
    simp [List.takeWhile, List.dropWhile, h1, h2]

/-- Rounding to the nearest integer: the result is within one half of
`num / den`. -/
theorem roundHalfEven_nearest (num den : Nat) (hden : 0 < den) :
    2 * num ≤ (2 * roundHalfEven num den + 1) * den ∧
    2 * roundHalfEven num den * den ≤ 2 * num + den := by
  have hdm := Nat.div_add_mod num den
  have hlt := Nat.mod_lt num hden
  unfold roundHalfEven
  generalize num / den = q at *
  generalize num % den = r at *
  have e1 : (2 * q + 1) * den = 2 * (den * q) + den := by ring
  have e2 : 2 * q * den = 2 * (den * q) := by ring
  have e3 : (2 * (q + 1) + 1) * den = 2 * (den * q) + 3 * den := by ring
  have e4 : 2 * (q + 1) * den = 2 * (den * q) + 2 * den := by ring
  generalize den * q = p at *
  split_ifs <;> (simp only [e1, e2, e3, e4]; omega)

/-! ## Reading back what `%.2f` wrote -/

theorem digit_facts (c : Char) (h : c.isDigit = true) :
    c.toLower ≠ 'n' ∧ c.toLower ≠ 'i' ∧ c ≠ '-' ∧ c ≠ '+' ∧ isspace c = false := by
  have h1 := isDigit_cases c h
  simp only [List.mem_cons, List.mem_singleton, List.not_mem_nil, or_false] at h1
  rcases h1 with rfl | rfl | rfl | rfl | rfl | rfl | rfl | rfl | rfl | rfl <;> decide

/-- The numeral scanner on digits, a point and two digits, followed by a new
line. -/
theorem scanNumber_printed (neg : Bool) (ip : List Char) (d1 d2 : Char) (rest : List Char)
    (hne : ip ≠ []) (hd : ∀ c ∈ ip, c.isDigit = true)
    (h1 : d1.isDigit = true) (h2 : d2.isDigit = true) :
    scanNumber neg (ip ++ '.' :: d1 :: d2 :: '\n' :: rest) =
      (some (Binary64.ofFrac neg (digitsValue (ip ++ [d1, d2])) 100), ip.length + 3) := by
  obtain ⟨h, t, rfl⟩ := List.exists_cons_of_ne_nil hne
  have hf := digit_facts h (hd h (List.mem_cons_self _ _))
  have m1 : matchWord ['n', 'a', 'n'] (h :: t ++ '.' :: d1 :: d2 :: '\n' :: rest) = 0 := by
    simp [matchWord, hf.1]
  have m2 : matchWord ['i', 'n', 'f'] (h :: t ++ '.' :: d1 :: d2 :: '\n' :: rest) = 0 := by
    simp [matchWord, hf.2.1]
  have t1 := takeWhile_digits (h :: t) '.' (d1 :: d2 :: '\n' :: rest) hd (by decide)
  have t2 := takeWhile_digits [d1, d2] '\n' rest
    (by intro c hc; simp at hc; rcases hc with rfl | rfl <;> assumption) (by decide)
  have t3 : [d1, d2] ++ '\n' :: rest = d1 :: d2 :: '\n' :: rest := rfl
  rw [t3] at t2
  unfold scanNumber
  rw [m1, m2, t1.1, t1.2]
  simp only [t2.1, t2.2]
  have se : scanExponent ('\n' :: rest) = (some 0, 0) := by
    simp [scanExponent]
  rw [if_neg (by decide), if_neg (by decide), if_neg (by decide), if_neg (by decide),
    if_neg (by simp), se]
  have dv : decimalValue neg (digitsValue (h :: t ++ [d1, d2])) (0 - ([d1, d2].length : Int)) =
      Binary64.ofFrac neg (digitsValue (h :: t ++ [d1, d2])) 100 := by
    unfold decimalValue
    rw [if_neg (by simp)]
    rfl
  simp only [dv]
  rfl

/-- What `%.2f` writes for a finite amount: the sign, at least one digit, a
point and two digits, which together are the amount in hundredths. -/
theorem printf2f_fin (neg : Bool) (k : Nat) :
    ∃ ip d1 d2, printf2f (.fin neg k) = signText neg ++ ip ++ ['.', d1, d2] ∧ ip ≠ [] ∧
      (∀ c ∈ ip, c.isDigit = true) ∧ d1.isDigit = true ∧ d2.isDigit = true ∧
      digitsValue (ip ++ [d1, d2]) = hundredths k := by
  obtain ⟨hne, hd, hv⟩ := toDigits_spec (hundredths k / 100)
  have l1 : hundredths k % 100 / 10 < 10 := by omega
  have l2 : hundredths k % 10 < 10 := by omega
  refine ⟨Nat.toDigits 10 (hundredths k / 100), Nat.digitChar (hundredths k % 100 / 10),
    Nat.digitChar (hundredths k % 10), rfl, hne, hd, digitChar_isDigit _ l1,
    digitChar_isDigit _ l2, ?_⟩
  have e : Nat.toDigits 10 (hundredths k / 100) ++
      [Nat.digitChar (hundredths k % 100 / 10), Nat.digitChar (hundredths k % 10)] =
      (Nat.toDigits 10 (hundredths k / 100) ++ [Nat.digitChar (hundredths k % 100 / 10)]) ++
        [Nat.digitChar (hundredths k % 10)] := by simp
  rw [e, digitsValue_append_singleton, digitsValue_append_singleton, hv,
    digitChar_value _ l1, digitChar_value _ l2]
  omega

/-- Reading back: `%lf` converts the text `%.2f` wrote for `a`, followed by
the new line of the file, to `round2 a`, and reads exactly that text. -/
theorem scanfLf_printf2f (a : Binary64) (rest : List Char) :
    readsNumber scanfLf (printf2f a) ('\n' :: rest) (round2 a) := by
  cases a with
  | nan neg =>
    cases neg
    · exact ⟨⟨'n', ['a', 'n'], rfl, by decide⟩, rfl⟩
    · exact ⟨⟨'-', ['n', 'a', 'n'], rfl, by decide⟩, rfl⟩
  | inf neg =>
    cases neg
    · exact ⟨⟨'i', ['n', 'f'], rfl, by decide⟩, rfl⟩
    · exact ⟨⟨'-', ['i', 'n', 'f'], rfl, by decide⟩, rfl⟩
  | fin neg k =>
    obtain ⟨ip, d1, d2, e, hne, hd, h1, h2, hv⟩ := printf2f_fin neg k
    obtain ⟨h, t, rfl⟩ := List.exists_cons_of_ne_nil hne
    have hf := digit_facts h (hd h (List.mem_cons_self _ _))
    have sn := scanNumber_printed neg (h :: t) d1 d2 rest hne hd h1 h2
    rw [hv] at sn
    rw [readsNumber, e]
    cases neg
    · refine ⟨⟨h, t ++ ['.', d1, d2], rfl, hf.2.2.2.2⟩, ?_⟩
      have e2 : signText false ++ (h :: t) ++ ['.', d1, d2] ++ '\n' :: rest =
          h :: (t ++ '.' :: d1 :: d2 :: '\n' :: rest) := by simp [signText]
      rw [e2]
      unfold scanfLf
      simp only [if_neg hf.2.2.1, if_neg hf.2.2.2.1]
      have e3 : h :: (t ++ '.' :: d1 :: d2 :: '\n' :: rest) =
          h :: t ++ '.' :: d1 :: d2 :: '\n' :: rest := rfl
      rw [e3, sn]
      simp [round2, signText]
    · refine ⟨⟨'-', h :: t ++ ['.', d1, d2], rfl, by decide⟩, ?_⟩
      have e2 : signText true ++ (h :: t) ++ ['.', d1, d2] ++ '\n' :: rest =
          '-' :: (h :: t ++ '.' :: d1 :: d2 :: '\n' :: rest) := by simp [signText]
      rw [e2]
      unfold scanfLf
      simp only [if_pos, sn]
      simp [round2, signText]

/-! ## C2: `saveDatabase` followed by `loadDatabase`, on `double` -/

/-- C2 as stated fails: a wallet holding one transaction of category
"fast food" and amount 12.5 is saved, and the file is loaded back: two
transactions result, the first of category "fast", the second dated "food".
A wallet holding one transaction whose category is the empty string comes
back with the text of the amount as its category. -/
theorem save_load_counterexample :
    (addEntry junkDouble (initWallet junkDouble) "2024/01/05".toList "expense".toList
      "fast food".toList (Binary64.ofFrac false 125 10)).1.entries =
      [ { date := "2024/01/05".toList, type := "expense".toList,
          category := "fast food".toList, amount := Binary64.ofFrac false 125 10 } ] ∧
    (saveDatabase printf2f
      (addEntry junkDouble (initWallet junkDouble) "2024/01/05".toList "expense".toList
        "fast food".toList (Binary64.ofFrac false 125 10)).1 true).2.1 =
      some "2024/01/05 expense fast food 12.50\n".toList ∧
    (loadDatabase scanfLf junkDouble
      (addEntry junkDouble (initWallet junkDouble) "2024/01/05".toList "expense".toList
        "fast food".toList (Binary64.ofFrac false 125 10)).1
      (saveDatabase printf2f
        (addEntry junkDouble (initWallet junkDouble) "2024/01/05".toList "expense".toList
          "fast food".toList (Binary64.ofFrac false 125 10)).1 true).2.1).1.entries.map
        (fun t => (t.date, t.type)) =
      [ ("2024/01/05".toList, "expense".toList), ("food".toList, "12.50".toList) ] ∧
    (loadDatabase scanfLf junkDouble
      (addEntry junkDouble (initWallet junkDouble) "2024/01/05".toList "expense".toList
        "fast food".toList (Binary64.ofFrac false 125 10)).1
      (saveDatabase printf2f
        (addEntry junkDouble (initWallet junkDouble) "2024/01/05".toList "expense".toList
          "fast food".toList (Binary64.ofFrac false 125 10)).1 true).2.1).1.entries.head?.map
        (fun t => t.category) = some "fast".toList ∧
    (saveDatabase printf2f
      (addEntry junkDouble (initWallet junkDouble) "2024/01/05".toList "expense".toList
        [] (Binary64.ofFrac false 125 10)).1 true).2.1 =
      some "2024/01/05 expense  12.50\n".toList ∧
    (loadDatabase scanfLf junkDouble
      (addEntry junkDouble (initWallet junkDouble) "2024/01/05".toList "expense".toList
        [] (Binary64.ofFrac false 125 10)).1
      (saveDatabase printf2f
        (addEntry junkDouble (initWallet junkDouble) "2024/01/05".toList "expense".toList
          [] (Binary64.ofFrac false 125 10)).1 true).2.1).1.entries.map
        (fun t => (t.date, t.type, t.category)) =
      [ ("2024/01/05".toList, "expense".toList, "12.50".toList) ] := by
  decide

/-- C2, amended: for every wallet of `double` amounts whose stored
transactions have date, type and category strings that are non-empty, free of
white space and within 10, 7 and 19 characters, saving it with `%.2f` and
loading the written file with `%lf` into any well-formed wallet succeeds and
yields a transaction sequence of the same length and order, each transaction
having the same date, type and category as the original and the amount
`round2` of the original amount.  `round2` keeps NaN and the infinities and
sends a finite amount to the double nearest to `h / 100`, where `h` is the
integer nearest to one hundred times the amount (within one half of it). -/
theorem save_load_roundtrip (junk : Transaction Binary64) (w v : Wallet Binary64) (hv : v.WF)
    (htok : ∀ t ∈ w.entries, isToken 10 t.date ∧ isToken 7 t.type ∧ isToken 19 t.category) :
    (saveDatabase printf2f w true).2.2 = "Database saved successfully.\n" ∧
    (loadDatabase scanfLf junk v (saveDatabase printf2f w true).2.1).2 =
      "Database loaded successfully.\n" ∧
    (loadDatabase scanfLf junk v (saveDatabase printf2f w true).2.1).1.entries =
      w.entries.map (fun t => { t with amount := round2 t.amount }) ∧
    (∀ neg, round2 (.nan neg) = .nan neg ∧ round2 (.inf neg) = .inf neg) ∧
    (∀ neg k, round2 (.fin neg k) = Binary64.ofFrac neg (hundredths k) 100 ∧
      2 * (100 * k) ≤ (2 * hundredths k + 1) * 2 ^ 1074 ∧
      2 * hundredths k * 2 ^ 1074 ≤ 2 * (100 * k) + 2 ^ 1074) := by
  have hr := records_of_saved_lines scanfLf printf2f round2 w.entries htok
    (fun t _ rest => scanfLf_printf2f t.amount rest) [] (by decide)
  rw [List.nil_append] at hr
  have h := loadDatabase_records scanfLf junk v _ _ hv hr
  exact ⟨rfl, rfl, h.1, fun _ => ⟨rfl, rfl⟩,
    fun _ k => ⟨rfl, roundHalfEven_nearest (100 * k) (2 ^ 1074) (Nat.pos_pow_of_pos _ (by decide))⟩⟩

theorem roundingWallet_file :
    (saveDatabase printf2f roundingWallet true).2.1 =
      some ("2024/01/05 income salary 0.12\n2024/01/10 expense food 1234.38\n" ++
        "2024/01/20 expense refund -0.00\n2024/01/25 expense misc nan\n").toList := by
  set_option maxRecDepth 10000 in decide

theorem roundingWallet_rounded :
    roundingWallet.entries.map (fun t => { t with amount := round2 t.amount }) =
      [ { date := "2024/01/05".toList, type := "income".toList,
          category := "salary".toList, amount := Binary64.ofFrac false 12 100 },
        { date := "2024/01/10".toList, type := "expense".toList,
          category := "food".toList, amount := Binary64.ofFrac false 123438 100 },
        { date := "2024/01/20".toList, type := "expense".toList,
          category := "refund".toList, amount := .fin true 0 },
        { date := "2024/01/25".toList, type := "expense".toList,
          category := "misc".toList, amount := .nan false } ] := by
  decide

/-- C2 amended, at a concrete input: the wallet with the amounts 0.125,
1234.375, -0.004 and NaN is saved and loaded back; the amounts come back as
0.12, 1234.38, -0.0 and NaN. -/
theorem save_load_roundtrip_witness :
    (saveDatabase printf2f roundingWallet true).2.1 =
      some ("2024/01/05 income salary 0.12\n2024/01/10 expense food 1234.38\n" ++
        "2024/01/20 expense refund -0.00\n2024/01/25 expense misc nan\n").toList ∧
    (loadDatabase scanfLf junkDouble roundingWallet
      (saveDatabase printf2f roundingWallet true).2.1).1.entries =
      [ { date := "2024/01/05".toList, type := "income".toList,
          category := "salary".toList, amount := Binary64.ofFrac false 12 100 },
        { date := "2024/01/10".toList, type := "expense".toList,
          category := "food".toList, amount := Binary64.ofFrac false 123438 100 },
        { date := "2024/01/20".toList, type := "expense".toList,
          category := "refund".toList, amount := .fin true 0 },
        { date := "2024/01/25".toList, type := "expense".toList,
          category := "misc".toList, amount := .nan false } ] :=
  ⟨roundingWallet_file,
   (save_load_roundtrip junkDouble roundingWallet roundingWallet (by decide) (by decide)).2.2.1.trans
     roundingWallet_rounded⟩

/-! ## C14: the file written by `saveDatabase`, on `double` -/

theorem roundingWallet_deleted_file :
    saveDatabase printf2f (deleteEntry roundingWallet 0).1 true =
      ((deleteEntry roundingWallet 0).1,
        some ("2024/01/10 expense food 1234.38\n2024/01/20 expense refund -0.00\n" ++
          "2024/01/25 expense misc nan\n").toList,
        "Database saved successfully.\n") := by
  set_option maxRecDepth 10000 in decide

/-- How one iteration of the loop of `displayTotals` changes `maxExpense` and
`maxCategory`. -/
theorem totalsStep_top [LT α] [DecidableRel (fun a b : α => a < b)] [Add α]
    (acc : Totals α) (t : Transaction α) :
    (totalsStep acc t).maxExpense =
      (if t.type = "expense".toList ∧ acc.maxExpense < t.amount then t.amount
        else acc.maxExpense) ∧
    (totalsStep acc t).maxCategory =
      (if t.type = "expense".toList ∧ acc.maxExpense < t.amount then t.category
        else acc.maxCategory) := by
  by_cases he : t.type = "expense".toList
  · rw [totalsStep_expense acc t he]
    by_cases hlt : acc.maxExpense < t.amount
    · rw [if_pos hlt, if_pos ⟨he, hlt⟩, if_pos ⟨he, hlt⟩]
      exact ⟨rfl, rfl⟩
    · rw [if_neg hlt, if_neg (fun h => hlt h.2), if_neg (fun h => hlt h.2)]
      exact ⟨rfl, rfl⟩
  · rw [if_neg (fun h => he h.1), if_neg (fun h => he h.1)]
    by_cases hi : t.type = "income".toList
    · rw [totalsStep_income acc t hi]
      exact ⟨rfl, rfl⟩
    · rw [totalsStep_other acc t hi he]
      exact ⟨rfl, rfl⟩

/-- The maximum kept by the loop of `displayTotals`, from any starting values,
for a comparison that is irreflexive and transitive (it need not be total: a
NaN compares with nothing): it stays as it is when no expense exceeds it, and
otherwise it becomes an expense amount that exceeds the starting value and
that no expense amount exceeds, with the category of the first expense of
that amount. -/
theorem top_foldl [LT α] [DecidableRel (fun a b : α => a < b)] [DecidableEq α] [Add α]
    (hirr : ∀ a : α, ¬ a < a) (htrans : ∀ a b c : α, a < b → b < c → a < c)
    (l : List (Transaction α)) (acc : Totals α) :
    ((∀ u ∈ l, u.type = "expense".toList → ¬ acc.maxExpense < u.amount) →
      (l.foldl totalsStep acc).maxExpense = acc.maxExpense ∧
      (l.foldl totalsStep acc).maxCategory = acc.maxCategory) ∧
    ((∃ u ∈ l, u.type = "expense".toList ∧ acc.maxExpense < u.amount) →
      acc.maxExpense < (l.foldl totalsStep acc).maxExpense ∧
      (∀ u ∈ l, u.type = "expense".toList → ¬ (l.foldl totalsStep acc).maxExpense < u.amount) ∧
      ∃ t, l.find? (fun u => u.type = "expense".toList ∧
              u.amount = (l.foldl totalsStep acc).maxExpense) = some t ∧
        (l.foldl totalsStep acc).maxCategory = t.category) := by
  induction l generalizing acc with
  | nil =>
    refine ⟨fun _ => ⟨rfl, rfl⟩, ?_⟩
    rintro ⟨u, hu, _⟩
    simp at hu
  | cons t ts ih =>
    obtain ⟨hm, hc⟩ := totalsStep_top acc t
    obtain ⟨ihA, ihB⟩ := ih (totalsStep acc t)
    rw [List.foldl_cons]
    have hmono : ∀ x, (totalsStep acc t).maxExpense < x → acc.maxExpense < x := by
      intro x hx
      by_cases h : t.type = "expense".toList ∧ acc.maxExpense < t.amount
      · rw [hm, if_pos h] at hx
        exact htrans _ _ _ h.2 hx
      · rw [hm, if_neg h] at hx
        exact hx
    have ht : t.type = "expense".toList → ¬ (totalsStep acc t).maxExpense < t.amount := by
      intro he
      rw [hm]
      by_cases hlt : acc.maxExpense < t.amount
      · rw [if_pos ⟨he, hlt⟩]; exact hirr _
      · rw [if_neg (fun h => hlt h.2)]; exact hlt
    constructor
    · intro hall
      have hnot : ¬ (t.type = "expense".toList ∧ acc.maxExpense < t.amount) := by
        rintro ⟨he, hlt⟩
        exact hall t (List.mem_cons_self _ _) he hlt
      rw [if_neg hnot] at hm hc
      have := ihA (fun u hu he => by
        rw [hm]; exact hall u (List.mem_cons_of_mem _ hu) he)
      rw [this.1, this.2, hm, hc]
      exact ⟨rfl, rfl⟩
    · intro hex
      by_cases hts : ∃ u ∈ ts, u.type = "expense".toList ∧ (totalsStep acc t).maxExpense < u.amount
      · obtain ⟨b1, b2, t', b3, b4⟩ := ihB hts
        refine ⟨hmono _ b1, ?_, t', ?_, b4⟩
        · intro u hu he
          rcases List.mem_cons.1 hu with rfl | hu
          · exact fun h => ht he (htrans _ _ _ b1 h)
          · exact b2 u hu he
        · rw [List.find?_cons]
          have hP : decide (t.type = "expense".toList ∧
              t.amount = (List.foldl totalsStep (totalsStep acc t) ts).maxExpense) = false := by
            rw [decide_eq_false_iff_not]
            rintro ⟨he, heq⟩
            rw [← heq] at b1
            exact ht he b1
          rw [hP]
          exact b3
      · have hall : ∀ u ∈ ts, u.type = "expense".toList →
            ¬ (totalsStep acc t).maxExpense < u.amount :=
          fun u hu he hlt => hts ⟨u, hu, he, hlt⟩
        obtain ⟨a1, a2⟩ := ihA hall
        have hthis : t.type = "expense".toList ∧ acc.maxExpense < t.amount := by
          by_contra hnot
          rw [if_neg hnot] at hm
          obtain ⟨u, hu, he, hlt⟩ := hex
          rcases List.mem_cons.1 hu with rfl | hu
          · exact hnot ⟨he, hlt⟩
          · have := hall u hu he
            rw [hm] at this
            exact this hlt
        rw [if_pos hthis] at hm hc
        rw [a1, a2, hm, hc]
        refine ⟨hthis.2, ?_, t, ?_, rfl⟩
        · intro u hu he
          rcases List.mem_cons.1 hu with rfl | hu
          · exact hirr _
          · have := hall u hu he
            rw [hm] at this
            exact this
        · rw [List.find?_cons]
          have hP : decide (t.type = "expense".toList ∧ t.amount = t.amount) = true := by
            rw [decide_eq_true_iff]
            exact ⟨hthis.1, rfl⟩
          rw [hP]

/-! ### The comparisons of `double` -/

theorem Binary64.lt_iff (a b : Binary64) :
    a < b ↔ ∃ x y, a.key = some x ∧ b.key = some y ∧ x < y := by
  show Binary64.lt a b = true ↔ _
  unfold Binary64.lt
  cases ha : a.key <;> cases hb : b.key <;> simp

theorem Binary64.le_iff (a b : Binary64) :
    a ≤ b ↔ ∃ x y, a.key = some x ∧ b.key = some y ∧ x ≤ y := by
  show Binary64.le a b = true ↔ _
  unfold Binary64.le
  cases ha : a.key <;> cases hb : b.key <;> simp

/-- No double is less than itself. -/
theorem Binary64.lt_irrefl (a : Binary64) : ¬ a < a := by
  rw [Binary64.lt_iff]
  rintro ⟨x, y, h1, h2, h3⟩
  rw [h1] at h2
  cases h2
  omega

/-- The comparison `<` of doubles is transitive. -/
theorem Binary64.lt_trans (a b c : Binary64) (h1 : a < b) (h2 : b < c) : a < c := by
  rw [Binary64.lt_iff] at *
  obtain ⟨x, y, hx, hy, hxy⟩ := h1
  obtain ⟨y', z, hy', hz, hyz⟩ := h2
  rw [hy] at hy'
  cases hy'
  exact ⟨x, z, hx, hz, by omega⟩

theorem Binary64.key_isNaN (a : Binary64) (h : a.isNaN = false) : ∃ x, a.key = some x := by
  cases a with
  | nan neg => simp [Binary64.isNaN] at h
  | inf neg => exact ⟨_, rfl⟩
  | fin neg k => exact ⟨_, rfl⟩

theorem Binary64.isNaN_of_lt (a b : Binary64) (h : a < b) : b.isNaN = false := by
  rw [Binary64.lt_iff] at h
  obtain ⟨x, y, _, hy, _⟩ := h
  cases b with
  | nan neg => simp [Binary64.key] at hy
  | inf neg => rfl
  | fin neg k => rfl

/-- Two doubles that are not NaN compare one way or the other. -/
theorem Binary64.le_of_not_lt (a b : Binary64) (ha : a.isNaN = false) (hb : b.isNaN = false)
    (h : ¬ b < a) : a ≤ b := by
  obtain ⟨x, hx⟩ := Binary64.key_isNaN a ha
  obtain ⟨y, hy⟩ := Binary64.key_isNaN b hb
  rw [Binary64.le_iff]
  rw [Binary64.lt_iff] at h
  refine ⟨x, y, hx, hy, ?_⟩
  by_contra hxy
  exact h ⟨y, x, hy, hx, by omega⟩

/-- What `displayTotals` reports as the most expensive category of a wallet
of `double` amounts, with an expense of positive amount and without one. -/
theorem displayTotals_top (w : Wallet Binary64) :
    ((∀ u ∈ w.entries, u.type = "expense".toList → ¬ 0 < u.amount) →
      (displayTotals w).2.2.2.2 = 0 ∧ (displayTotals w).2.2.2.1 = []) ∧
    ((∃ u ∈ w.entries, u.type = "expense".toList ∧ 0 < u.amount) →
      0 < (displayTotals w).2.2.2.2 ∧
      (∀ u ∈ w.entries, u.type = "expense".toList → ¬ (displayTotals w).2.2.2.2 < u.amount) ∧
      ∃ t, w.entries.find? (fun u => u.type = "expense".toList ∧
              u.amount = (displayTotals w).2.2.2.2) = some t ∧
        (displayTotals w).2.2.2.1 = t.category) :=
  top_foldl Binary64.lt_irrefl Binary64.lt_trans w.entries
    { totalIncome := 0, totalExpenses := 0, maxCategory := [], maxExpense := 0 }

/-- C11 as stated fails: for a wallet whose only transaction is an expense of
-5.00 in the category refund, `displayTotals` reports the empty category and
the amount 0.0, not refund and -5.00. -/
theorem displayTotals_top_expense_counterexample :
    (addEntry junkDouble (initWallet junkDouble) "2024/01/10".toList "expense".toList
      "refund".toList (Binary64.ofFrac true 5 1)).1.entries =
      [ { date := "2024/01/10".toList, type := "expense".toList,
          category := "refund".toList, amount := Binary64.ofFrac true 5 1 } ] ∧
    (displayTotals (addEntry junkDouble (initWallet junkDouble) "2024/01/10".toList
      "expense".toList "refund".toList (Binary64.ofFrac true 5 1)).1).2.2.2 = ([], 0) := by
  decide

/-- C11, amended: for every wallet of `double` amounts containing at least
one expense transaction of an amount greater than 0, the top-expense amount
reported by `displayTotals` is the largest amount among the expense
transactions: it is the amount of an expense transaction, no expense amount
is greater than it, and every expense amount that is not NaN is less than or
equal to it (a NaN compares with nothing); the reported category is the
category of the first (lowest-index) expense transaction of that amount.  For
a wallet with no expense transaction the reported category is empty and the
amount is 0.0. -/
theorem displayTotals_top_expense (w : Wallet Binary64) :
    ((∃ u ∈ w.entries, u.type = "expense".toList ∧ 0 < u.amount) →
      (∀ u ∈ w.entries, u.type = "expense".toList →
        ¬ (displayTotals w).2.2.2.2 < u.amount ∧
        (u.amount.isNaN = false → u.amount ≤ (displayTotals w).2.2.2.2)) ∧
      ∃ t, w.entries.find? (fun u => u.type = "expense".toList ∧
              u.amount = (displayTotals w).2.2.2.2) = some t ∧
        (displayTotals w).2.2.2.1 = t.category) ∧
    ((∀ u ∈ w.entries, u.type ≠ "expense".toList) →
      (displayTotals w).2.2.2.1 = [] ∧ (displayTotals w).2.2.2.2 = 0) := by
  obtain ⟨hA, hB⟩ := displayTotals_top w
  constructor
  · intro h
    obtain ⟨b1, b2, b3⟩ := hB h
    exact ⟨fun u hu he => ⟨b2 u hu he, fun hn =>
      Binary64.le_of_not_lt _ _ hn (Binary64.isNaN_of_lt _ _ b1) (b2 u hu he)⟩, b3⟩
  · intro h
    have := hA (fun u hu he => absurd he (h u hu))
    exact ⟨this.2, this.1⟩

/-- C11 amended, at a concrete input: expenses of NaN (misc), 5.00 (food),
5.00 (rent) and 2.50 (bus); the reported amount is 5.00 and the category is
food, that of the first expense of 5.00. -/
theorem displayTotals_top_expense_witness :
    (nanWallet.entries.map (fun u => (u.type, u.category, u.amount.isNaN)) =
      [ ("expense".toList, "misc".toList, true), ("expense".toList, "food".toList, false),
        ("expense".toList, "rent".toList, false), ("expense".toList, "bus".toList, false) ]) ∧
    ∃ t, nanWallet.entries.find? (fun u => u.type = "expense".toList ∧
          u.amount = Binary64.ofFrac false 5 1) = some t ∧ t.category = "food".toList ∧
      (displayTotals nanWallet).2.2.2 = (t.category, Binary64.ofFrac false 5 1) := by
  obtain ⟨_, t, h1, h2⟩ := (displayTotals_top_expense nanWallet).1
    ⟨{ date := "2024/01/10".toList, type := "expense".toList,
       category := "food".toList, amount := Binary64.ofFrac false 5 1 },
      by decide, by decide, by decide⟩
  have hm : (displayTotals nanWallet).2.2.2.2 = Binary64.ofFrac false 5 1 := by decide
  have hc : (displayTotals nanWallet).2.2.2.1 = "food".toList := by decide
  rw [hm] at h1
  refine ⟨by decide, t, h1, by rw [← h2, hc], ?_⟩
  rw [← h2]
  exact Prod.ext rfl hm

/-- C20: for every wallet of `double` amounts, `displayTotals` reports the
empty top-expense category with amount 0.0 if and only if no expense
transaction has an amount strictly greater than 0; when some expense
transaction has a positive amount, the reported amount is the maximum
positive expense amount (it is positive, it is the amount of an expense
transaction and every positive expense amount is less than or equal to it)
and the category is that of the first transaction attaining it. -/
theorem displayTotals_top_positive (w : Wallet Binary64) :
    (((displayTotals w).2.2.2.1 = [] ∧ (displayTotals w).2.2.2.2 = 0) ↔
      ¬ ∃ u ∈ w.entries, u.type = "expense".toList ∧ 0 < u.amount) ∧
    ((∃ u ∈ w.entries, u.type = "expense".toList ∧ 0 < u.amount) →
      0 < (displayTotals w).2.2.2.2 ∧
      (∀ u ∈ w.entries, u.type = "expense".toList → 0 < u.amount →
        u.amount ≤ (displayTotals w).2.2.2.2) ∧
      ∃ t, w.entries.find? (fun u => u.type = "expense".toList ∧
              u.amount = (displayTotals w).2.2.2.2) = some t ∧
        0 < t.amount ∧ (displayTotals w).2.2.2.1 = t.category) := by
  obtain ⟨hA, hB⟩ := displayTotals_top w
  refine ⟨⟨?_, ?_⟩, ?_⟩
  · rintro ⟨_, h0⟩ hex
    have := (hB hex).1
    rw [h0] at this
    exact Binary64.lt_irrefl _ this
  · intro hno
    have := hA (fun u hu he hlt => hno ⟨u, hu, he, hlt⟩)
    exact ⟨this.2, this.1⟩
  · intro hex
    obtain ⟨b1, b2, t, b3, b4⟩ := hB hex
    refine ⟨b1, fun u hu he hpos => Binary64.le_of_not_lt _ _ (Binary64.isNaN_of_lt _ _ hpos)
      (Binary64.isNaN_of_lt _ _ b1) (b2 u hu he), t, b3, ?_, b4⟩
    have hp := List.find?_some b3
    have heq : t.amount = (displayTotals w).2.2.2.2 := (of_decide_eq_true hp).2
    rw [heq]
    exact b1

/-- C20, at concrete inputs: a wallet whose expenses are 0.00 (gift), -5.00
(refund) and NaN (misc) reports the empty category and 0.0; the wallet with
expenses NaN, 5.00, 5.00 and 2.50 reports a positive amount, 5.00 in food. -/
theorem displayTotals_top_positive_witness :
    (displayTotals (addEntries junkDouble (initWallet junkDouble)
      [ { date := "2024/01/10".toList, type := "expense".toList,
          category := "gift".toList, amount := 0 },
        { date := "2024/01/11".toList, type := "expense".toList,
          category := "refund".toList, amount := Binary64.ofFrac true 5 1 },
        { date := "2024/01/12".toList, type := "expense".toList,
          category := "misc".toList, amount := .nan false } ])).2.2.2 = ([], 0) ∧
    (0 : Binary64) < (displayTotals nanWallet).2.2.2.2 ∧
    (displayTotals nanWallet).2.2.2 = ("food".toList, Binary64.ofFrac false 5 1) :=
  ⟨by decide,
   ((displayTotals_top_positive nanWallet).2
      ⟨{ date := "2024/01/10".toList, type := "expense".toList,
         category := "food".toList, amount := Binary64.ofFrac false 5 1 },
        by decide, by decide, by decide⟩).1,
   by decide⟩

end WalletProgram
